import Mathlib

/-!
Verification of the `simple_dag` library (`dag.h` / `algorithms.h`).

The node identifier type is embedded as `Nat` (the source is generic over a
totally ordered id type; the tests instantiate it with `uint32_t`).
`std::vector` becomes `List`, and each binary search over an array that the
source keeps sorted is embedded as the membership / existence test it
implements on such an array.
-/

/-- `directed_edge` from dag.h: an edge pointing from `src` to `dst`. -/
structure DirectedEdge where
  src : Nat
  dst : Nat
deriving DecidableEq

/-- `m_edges_by_src`: the input edges sorted by src key (the C++ uses
`std::sort` with comparator `a.get_src() < b.get_src()`; any permutation
sorted by the key is an admissible result, this is one of them). -/
def sortEdgesBySrc (edges : List DirectedEdge) : List DirectedEdge :=
  List.insertionSort (fun a b => a.src ≤ b.src) edges

/-- `m_edges_by_dst`: the input edges sorted by dst key. -/
def sortEdgesByDst (edges : List DirectedEdge) : List DirectedEdge :=
  List.insertionSort (fun a b => a.dst ≤ b.dst) edges

/-- `std::unique` on a sorted vector: drop adjacent duplicate entries. -/
def dedupAdj : List Nat → List Nat
  | [] => []
  | a :: rest =>
    match rest with
    | [] => [a]
    | b :: _ => if a = b then dedupAdj rest else a :: dedupAdj rest

/-- `m_all_nodes` as gathered in `dag::build`: the supplied node ids plus
both endpoints of every edge (walked in `m_edges_by_src` order), sorted and
then made unique. -/
def gatherNodes (edges : List DirectedEdge) (nodes : List Nat) : List Nat :=
  dedupAdj (List.insertionSort (fun a b => a ≤ b)
    (nodes ++ (sortEdgesBySrc edges).flatMap (fun e => [e.src, e.dst])))

/-- The observable state of a constructed `dag<T>`:
`m_valid`, `m_edges_by_src`, `m_edges_by_dst`, `m_all_nodes`,
`m_sorted_nodes`. -/
structure DagState where
  valid : Bool
  edges_by_src : List DirectedEdge
  edges_by_dst : List DirectedEdge
  all_nodes : List Nat
  sorted_nodes : List Nat

/-- The lower_bound test of the rescan topological sort: does node `n`
still have an incoming edge among the remaining edges?  (The C++ runs a
`lower_bound` over the dst-sorted remaining edge array; on such an array
the test is exactly existence of an edge with this dst.) -/
def hasIncoming (remEdges : List DirectedEdge) (n : Nat) : Bool :=
  remEdges.any (fun e => decide (e.dst = n))

/-- The `while` loop of the first (rescan) `dag::topological_sort` variant.
Each pass collects `to_go`, the remaining nodes with no remaining incoming
edge; if none was found `m_valid` becomes false and the loop stops,
otherwise those nodes are appended to the output and the nodes themselves
and the edges leaving them are erased.  (The C++ erasures test membership
in `to_go` with `binary_search`; `to_go` is ascending because the remaining
node array stays ascending, so the test is list membership.) -/
def rescanToGo (remEdges : List DirectedEdge) (remNodes : List Nat) : List Nat :=
  remNodes.filter (fun n => !hasIncoming remEdges n)

def rescanLoop : Nat → List DirectedEdge → List Nat → List Nat → Bool × List Nat
  | 0, _, _, acc => (true, acc)
  | fuel + 1, remEdges, remNodes, acc =>
    if remNodes = [] then (true, acc)
    else if rescanToGo remEdges remNodes = [] then (false, acc)
    else
      rescanLoop fuel
        (remEdges.filter (fun e => !decide (e.src ∈ rescanToGo remEdges remNodes)))
        (remNodes.filter (fun n => !decide (n ∈ rescanToGo remEdges remNodes)))
        (acc ++ rescanToGo remEdges remNodes)

/-- The first (rescan) `dag::topological_sort`: runs the pass loop from the
dst-sorted edges and all nodes; on failure the partial order is discarded.
Each pass of the C++ loop removes at least one node or stops, so a fuel of
`remNodes.length` is sufficient: fuel 0 is reached only with no remaining
nodes, where the C++ loop also stops with `m_valid` still true. -/
def topoRescan (edges : List DirectedEdge) (nodes : List Nat) : Bool × List Nat :=
  let r := rescanLoop (gatherNodes edges nodes).length (sortEdgesByDst edges)
    (gatherNodes edges nodes) []
  (r.1, if r.1 then r.2 else [])

/-- A `dag` constructed by the first dag.h variant (rescan sort). -/
def buildRescan (edges : List DirectedEdge) (nodes : List Nat) : DagState :=
  { valid := (topoRescan edges nodes).1
    edges_by_src := sortEdgesBySrc edges
    edges_by_dst := sortEdgesByDst edges
    all_nodes := gatherNodes edges nodes
    sorted_nodes := (topoRescan edges nodes).2 }

/-- Pointwise update of a count table. -/
def setCount (f : Nat → Nat) (v c : Nat) : Nat → Nat :=
  fun x => if x = v then c else f x

/-- The `incoming_counts` table of the Kahn variant, accumulated by walking
`m_edges_by_dst` and bumping the entry of each edge's dst.  (The C++ array
is keyed by `m_all_nodes`, looked up by `lower_bound`; every dst occurs
there, so the increment lands on the entry of that dst.) -/
def initCounts (edges : List DirectedEdge) : Nat → Nat :=
  edges.foldl (fun f e => setCount f e.dst (f e.dst + 1)) (fun _ => 0)

/-- Destinations of the src-sorted edge range with key `v` (the
`lower_bound`/`upper_bound` range over `m_edges_by_src` in the C++). -/
def outEdgeDsts (ebs : List DirectedEdge) (v : Nat) : List Nat :=
  (ebs.filter (fun e => decide (e.src = v))).map (fun e => e.dst)

/-- The worklist loop of the Kahn `dag::topological_sort` variant, with an
explicit fuel (the C++ loop runs until the queue is empty; the fuel chosen
by `topoKahn` is proved sufficient below, so the returned queue is empty).
The C++ decrements a `size_t` count and appends when `--count == 0`;
that test succeeds exactly when the stored count was 1, since a decrement
of 0 wraps around to a nonzero value, so the branch tests for 1 and then
stores the truncated decrement. -/
def kahnLoop (ebs : List DirectedEdge) :
    Nat → (Nat → Nat) → List Nat → List Nat → ((Nat → Nat) × List Nat × List Nat)
  | 0, counts, queue, out => (counts, queue, out)
  | _ + 1, counts, [], out => (counts, [], out)
  | fuel + 1, counts, v :: queue, out =>
    if counts v = 1 then
      kahnLoop ebs fuel (setCount counts v 0) (queue ++ outEdgeDsts ebs v) (out ++ [v])
    else
      kahnLoop ebs fuel (setCount counts v (counts v - 1)) queue out

/-- Fuel bound for `kahnLoop`: every iteration strictly decreases
`queue.length + totalCounts * (edges.length + 2)`. -/
def kahnFuel (edges : List DirectedEdge) (counts : Nat → Nat)
    (all queue : List Nat) : Nat :=
  queue.length + (all.map counts).sum * (edges.length + 2)

/-- The seed-plus-worklist phase of the Kahn `dag::topological_sort`: the
output starts as the zero-in-degree nodes in `m_all_nodes` order (the
initial `for` over `incoming_counts`), the queue starts as the destinations
of their outgoing edges, and then the worklist loop runs. -/
def kahnRun (edges : List DirectedEdge) (nodes : List Nat) :
    (Nat → Nat) × List Nat × List Nat :=
  kahnLoop (sortEdgesBySrc edges)
    (kahnFuel edges (initCounts (sortEdgesByDst edges)) (gatherNodes edges nodes)
      (((gatherNodes edges nodes).filter
          (fun n => decide (initCounts (sortEdgesByDst edges) n = 0))).flatMap
        (fun r => outEdgeDsts (sortEdgesBySrc edges) r)))
    (initCounts (sortEdgesByDst edges))
    (((gatherNodes edges nodes).filter
        (fun n => decide (initCounts (sortEdgesByDst edges) n = 0))).flatMap
      (fun r => outEdgeDsts (sortEdgesBySrc edges) r))
    ((gatherNodes edges nodes).filter
      (fun n => decide (initCounts (sortEdgesByDst edges) n = 0)))

/-- The second (queue-based Kahn) `dag::topological_sort`: run the seed and
worklist phases, then set `m_valid` iff the output order reached every
node; on failure the partial order is discarded. -/
def topoKahn (edges : List DirectedEdge) (nodes : List Nat) : Bool × List Nat :=
  let ok := decide ((kahnRun edges nodes).2.2.length = (gatherNodes edges nodes).length)
  (ok, if ok then (kahnRun edges nodes).2.2 else [])

/-- A `dag` constructed by the second dag.h variant (queue-based Kahn). -/
def buildKahn (edges : List DirectedEdge) (nodes : List Nat) : DagState :=
  { valid := (topoKahn edges nodes).1
    edges_by_src := sortEdgesBySrc edges
    edges_by_dst := sortEdgesByDst edges
    all_nodes := gatherNodes edges nodes
    sorted_nodes := (topoKahn edges nodes).2 }

/-- A graph constructed by either dag.h variant (`build` and the accessor
data are shared; only `topological_sort` differs). -/
def buildVariant (useKahn : Bool) (edges : List DirectedEdge)
    (nodes : List Nat) : DagState :=
  if useKahn then buildKahn edges nodes else buildRescan edges nodes

/-- `find_before` from algorithms.h: direct predecessors of `n`, collected
from the dst-sorted range with key `n`, then sorted and deduplicated. -/
def findBefore (g : DagState) (n : Nat) : Bool × List Nat :=
  if g.valid then
    (true, dedupAdj (List.insertionSort (fun a b => a ≤ b)
      ((g.edges_by_dst.filter (fun e => decide (e.dst = n))).map (fun e => e.src))))
  else (false, [])

/-- `find_after` from algorithms.h: direct successors of `n`. -/
def findAfter (g : DagState) (n : Nat) : Bool × List Nat :=
  if g.valid then
    (true, dedupAdj (List.insertionSort (fun a b => a ≤ b)
      ((g.edges_by_src.filter (fun e => decide (e.src = n))).map (fun e => e.dst))))
  else (false, [])

/-- The inner `while` over one edge range in `find_all_before` /
`find_all_after`: each collected neighbor is looked up in the sorted output
(a `lower_bound`, i.e. a membership test), and if absent it is inserted at
its sorted position and pushed onto the work stack. -/
def scanInsert : List Nat → List Nat → List Nat → List Nat × List Nat
  | [], out, stack => (out, stack)
  | x :: xs, out, stack =>
    if x ∈ out then scanInsert xs out stack
    else scanInsert xs (List.orderedInsert (fun a b => a ≤ b) x out) (x :: stack)

/-- The depth-first worklist loop shared by `find_all_before`
(`keyf` = dst, `valf` = src, over `m_edges_by_dst`) and `find_all_after`
(`keyf` = src, `valf` = dst, over `m_edges_by_src`), with an explicit fuel
(the fuel chosen below is proved sufficient, so the returned stack is
empty).  Returns the pair (sorted output, remaining stack). -/
def closureLoop (edges : List DirectedEdge) (keyf valf : DirectedEdge → Nat) :
    Nat → List Nat → List Nat → List Nat × List Nat
  | 0, out, stack => (out, stack)
  | _ + 1, out, [] => (out, [])
  | fuel + 1, out, cur :: rest =>
    let found := (edges.filter (fun e => decide (keyf e = cur))).map valf
    let p := scanInsert found out rest
    closureLoop edges keyf valf fuel p.1 p.2

/-- Fuel bound for `closureLoop`: every iteration strictly decreases
`stack.length + 2 * (number of candidate values not yet in the output)`. -/
def closureFuel (edges : List DirectedEdge) (valf : DirectedEdge → Nat) : Nat :=
  1 + 2 * ((edges.map valf).dedup).length

/-- `find_all_before` from algorithms.h: transitive predecessors of `n`,
via a depth-first worklist over `m_edges_by_dst`. -/
def findAllBefore (g : DagState) (n : Nat) : Bool × List Nat :=
  if g.valid then
    (true, (closureLoop g.edges_by_dst (fun e => e.dst) (fun e => e.src)
      (closureFuel g.edges_by_dst (fun e => e.src)) [] [n]).1)
  else (false, [])

/-- `find_all_after` from algorithms.h: transitive successors of `n`,
via a depth-first worklist over `m_edges_by_src`. -/
def findAllAfter (g : DagState) (n : Nat) : Bool × List Nat :=
  if g.valid then
    (true, (closureLoop g.edges_by_src (fun e => e.src) (fun e => e.dst)
      (closureFuel g.edges_by_src (fun e => e.dst)) [] [n]).1)
  else (false, [])

/-- `find_all_siblings` from algorithms.h: requires the graph valid and the
node present in `m_all_nodes` (a `binary_search` over that sorted array);
when there could be siblings it copies `m_all_nodes` and erases the node
itself and everything in the two closure sets (membership tested by
`binary_search` over the sorted closure outputs). -/
def findAllSiblings (g : DagState) (n : Nat) : Bool × List Nat :=
  if g.valid ∧ n ∈ g.all_nodes then
    let before := (findAllBefore g n).2
    let after := (findAllAfter g n).2
    if before.length + after.length + 1 < g.all_nodes.length then
      (true, g.all_nodes.filter (fun m =>
        !(decide (m = n) || decide (m ∈ before) || decide (m ∈ after))))
    else
      (true, [])
  else (false, [])

/-- `find_current_tasks` from algorithms.h: start from `m_all_nodes`, erase
the nodes in `done`, erase the edges leaving `done`, then erase every node
a remaining edge still points to.  (`done` is required sorted by the C++
contract, so its `binary_search` is a membership test; the remaining edge
array stays dst-sorted, so its `lower_bound` test is existence.) -/
def findCurrentTasks (g : DagState) (done : List Nat) : Bool × List Nat :=
  if g.valid then
    let out1 := g.all_nodes.filter (fun n => !decide (n ∈ done))
    let edges1 := g.edges_by_dst.filter (fun e => !decide (e.src ∈ done))
    (true, out1.filter (fun n => !edges1.any (fun e => decide (e.dst = n))))
  else (false, [])

/-- `u` has a directed edge to `v` in the edge collection. -/
def edgeMem (edges : List DirectedEdge) (u v : Nat) : Prop :=
  ∃ e ∈ edges, e.src = u ∧ e.dst = v

/-- The edge multiset, viewed as a directed graph, contains no cycle. -/
def Acyclic (edges : List DirectedEdge) : Prop :=
  ∀ n, ¬ Relation.TransGen (edgeMem edges) n n

/-- Multiplicity of `n` in a worklist. -/
def qcount (q : List Nat) (n : Nat) : Nat :=
  q.countP (fun x => decide (x = n))

/-- Number of edges into `n` whose source has not been output yet. -/
def unmetCount (edges : List DirectedEdge) (out : List Nat) (n : Nat) : Nat :=
  edges.countP (fun e => decide (e.dst = n) && !decide (e.src ∈ out))

/-- The state invariant of the Kahn worklist loop: queue entries are edge
destinations; the output is duplicate-free, drawn from the node set and
prefix-closed under edges (with edges pointing forward); and each node's
stored count equals its queue multiplicity plus its unmet in-edges. -/
def KahnInv (edges : List DirectedEdge) (allN : List Nat)
    (counts : Nat → Nat) (queue out : List Nat) : Prop :=
  (∀ v ∈ queue, ∃ e ∈ edges, e.dst = v) ∧
  out.Nodup ∧
  (∀ x ∈ out, x ∈ allN) ∧
  (∀ n ∈ allN, counts n = qcount queue n + unmetCount edges out n) ∧
  (∀ e ∈ edges, e.dst ∈ out →
    e.src ∈ out ∧ out.indexOf e.src < out.indexOf e.dst) ∧
  (∀ n ∈ out, counts n = 0) ∧
  (∀ n ∈ allN, n ∉ out → 1 ≤ counts n)

/-! ## Generic helper lemmas -/

theorem dedupAdj_nil : dedupAdj [] = [] := rfl

theorem dedupAdj_singleton (a : Nat) : dedupAdj [a] = [a] := rfl

theorem dedupAdj_cons_cons (a b : Nat) (t : List Nat) :
    dedupAdj (a :: b :: t) =
      if a = b then dedupAdj (b :: t) else a :: dedupAdj (b :: t) := rfl

theorem mem_dedupAdj : ∀ (l : List Nat) (x : Nat), x ∈ dedupAdj l ↔ x ∈ l := by
  intro l
  induction l with
  | nil => intro x; simp [dedupAdj_nil]
  | cons a rest ih =>
    intro x
    cases rest with
    | nil => simp [dedupAdj_singleton]
    | cons b t =>
      rw [dedupAdj_cons_cons]
      by_cases hab : a = b
      · rw [if_pos hab, ih, hab]
        simp only [List.mem_cons]
        tauto
      · rw [if_neg hab]
        simp only [List.mem_cons]
        rw [ih]
        simp [List.mem_cons]

theorem sorted_lt_dedupAdj : ∀ (l : List Nat),
    l.Sorted (fun a b => a ≤ b) → (dedupAdj l).Sorted (fun a b => a < b) := by
  intro l
  induction l with
  | nil => intro _; simp [dedupAdj_nil]
  | cons a rest ih =>
    intro hs
    rw [List.sorted_cons] at hs
    cases rest with
    | nil => simp [dedupAdj_singleton]
    | cons b t =>
      rw [dedupAdj_cons_cons]
      by_cases hab : a = b
      · rw [if_pos hab]
        exact ih hs.2
      · rw [if_neg hab]
        rw [List.sorted_cons]
        refine ⟨?_, ih hs.2⟩
        intro x hx
        have hxm : x ∈ b :: t := (mem_dedupAdj _ x).mp hx
        have hax : a ≤ x := hs.1 x hxm
        have hbt := List.sorted_cons.mp hs.2
        rcases List.mem_cons.mp hxm with rfl | hxt
        · exact Nat.lt_of_le_of_ne hax hab
        · have hab2 : a < b := Nat.lt_of_le_of_ne (hs.1 b (List.mem_cons_self _ _)) hab
          exact Nat.lt_of_lt_of_le hab2 (hbt.1 x hxt)

theorem sortEdgesBySrc_perm (edges : List DirectedEdge) :
    List.Perm (sortEdgesBySrc edges) edges :=
  List.perm_insertionSort _ edges

theorem sortEdgesByDst_perm (edges : List DirectedEdge) :
    List.Perm (sortEdgesByDst edges) edges :=
  List.perm_insertionSort _ edges

theorem mem_sortEdgesBySrc {edges : List DirectedEdge} {e : DirectedEdge} :
    e ∈ sortEdgesBySrc edges ↔ e ∈ edges :=
  (sortEdgesBySrc_perm edges).mem_iff

theorem mem_sortEdgesByDst {edges : List DirectedEdge} {e : DirectedEdge} :
    e ∈ sortEdgesByDst edges ↔ e ∈ edges :=
  (sortEdgesByDst_perm edges).mem_iff

theorem gatherNodes_sorted (edges : List DirectedEdge) (nodes : List Nat) :
    (gatherNodes edges nodes).Sorted (fun a b => a < b) :=
  sorted_lt_dedupAdj _ (List.sorted_insertionSort _ _)

theorem gatherNodes_nodup (edges : List DirectedEdge) (nodes : List Nat) :
    (gatherNodes edges nodes).Nodup :=
  (gatherNodes_sorted edges nodes).nodup

theorem mem_gatherNodes {edges : List DirectedEdge} {nodes : List Nat} {x : Nat} :
    x ∈ gatherNodes edges nodes ↔
      x ∈ nodes ∨ ∃ e ∈ edges, e.src = x ∨ e.dst = x := by
  unfold gatherNodes
  rw [mem_dedupAdj, List.mem_insertionSort, List.mem_append, List.mem_flatMap]
  constructor
  · rintro (h | ⟨e, he, hx⟩)
    · exact Or.inl h
    · refine Or.inr ⟨e, mem_sortEdgesBySrc.mp he, ?_⟩
      simp only [List.mem_cons, List.not_mem_nil, or_false] at hx
      rcases hx with h | h
      · exact Or.inl h.symm
      · exact Or.inr h.symm
  · rintro (h | ⟨e, he, hx⟩)
    · exact Or.inl h
    · refine Or.inr ⟨e, mem_sortEdgesBySrc.mpr he, ?_⟩
      simp only [List.mem_cons, List.not_mem_nil, or_false]
      rcases hx with h | h
      · exact Or.inl h.symm
      · exact Or.inr h.symm

theorem src_mem_gatherNodes {edges : List DirectedEdge} {nodes : List Nat}
    {e : DirectedEdge} (he : e ∈ edges) : e.src ∈ gatherNodes edges nodes :=
  mem_gatherNodes.mpr (Or.inr ⟨e, he, Or.inl rfl⟩)

theorem dst_mem_gatherNodes {edges : List DirectedEdge} {nodes : List Nat}
    {e : DirectedEdge} (he : e ∈ edges) : e.dst ∈ gatherNodes edges nodes :=
  mem_gatherNodes.mpr (Or.inr ⟨e, he, Or.inr rfl⟩)

/-- Pigeonhole: in a finite nonempty set in which every element has a
predecessor inside the set, some node lies on a cycle. -/
theorem exists_cycle_of_preds (edges : List DirectedEdge) (S : Finset ℕ)
    (hS : S.Nonempty) (h : ∀ n ∈ S, ∃ m ∈ S, edgeMem edges m n) :
    ∃ n, Relation.TransGen (edgeMem edges) n n := by
  classical
  obtain ⟨n₀, hn₀⟩ := hS
  have pick : ∀ x : {a // a ∈ S}, ∃ b : {a // a ∈ S}, edgeMem edges b.1 x.1 := by
    rintro ⟨x, hx⟩
    obtain ⟨m, hm, hmx⟩ := h x hx
    exact ⟨⟨m, hm⟩, hmx⟩
  choose f hf using pick
  set g : ℕ → {a // a ∈ S} := fun k => f^[k] ⟨n₀, hn₀⟩ with hg
  have hstep : ∀ k, edgeMem edges (g (k + 1)).1 (g k).1 := by
    intro k
    have hit : g (k + 1) = f (g k) := Function.iterate_succ_apply' f k _
    rw [hit]
    exact hf (g k)
  have hchain : ∀ i j, i < j →
      Relation.TransGen (edgeMem edges) (g j).1 (g i).1 := by
    intro i j hij
    induction j, hij using Nat.le_induction with
    | base => exact Relation.TransGen.single (hstep i)
    | succ m _ ih => exact Relation.TransGen.head (hstep m) ih
  obtain ⟨a, b, hab, heq⟩ := Finite.exists_ne_map_eq_of_infinite g
  rcases Nat.lt_or_ge a b with hlt | hge
  · refine ⟨(g b).1, ?_⟩
    have := hchain a b hlt
    rwa [heq] at this
  · have hlt : b < a := Nat.lt_of_le_of_ne hge (fun hba => hab hba.symm)
    refine ⟨(g b).1, ?_⟩
    have := hchain b a hlt
    rwa [heq] at this

/-- A linear order in which every edge goes forward witnesses acyclicity. -/
theorem acyclic_of_order (edges : List DirectedEdge) (order : List Nat)
    (h : ∀ e ∈ edges, e.src ∈ order ∧ e.dst ∈ order ∧
      order.indexOf e.src < order.indexOf e.dst) : Acyclic edges := by
  intro n hn
  have mono : ∀ u v, Relation.TransGen (edgeMem edges) u v →
      order.indexOf u < order.indexOf v := by
    intro u v huv
    induction huv with
    | single hstep =>
      obtain ⟨e, he, hsrc, hdst⟩ := hstep
      subst hsrc; subst hdst
      exact (h e he).2.2
    | tail _ hstep ih =>
      obtain ⟨e, he, hsrc, hdst⟩ := hstep
      subst hsrc; subst hdst
      exact Nat.lt_trans ih (h e he).2.2
  exact absurd (mono n n hn) (Nat.lt_irrefl _)

theorem sum_map_setCount (f : Nat → Nat) (v c : Nat) :
    ∀ (l : List Nat), v ∈ l → l.Nodup →
      (l.map (setCount f v c)).sum + f v = (l.map f).sum + c := by
  intro l
  induction l with
  | nil => intro hv; cases hv
  | cons a t ih =>
    intro hv hnd
    rw [List.nodup_cons] at hnd
    rcases List.mem_cons.mp hv with rfl | hv2
    · have hmap : t.map (setCount f v c) = t.map f := by
        apply List.map_congr_left
        intro x hx
        have hxv : x ≠ v := fun hxv => hnd.1 (hxv ▸ hx)
        simp [setCount, hxv]
      simp [hmap, setCount]
      omega
    · have hav : a ≠ v := fun hav => hnd.1 (hav ▸ hv2)
      have := ih hv2 hnd.2
      simp only [List.map_cons, List.sum_cons, setCount, if_neg hav]
      omega

theorem countP_split (l : List DirectedEdge) (p q : DirectedEdge → Bool) :
    l.countP p = (l.filter q).countP p + (l.filter (fun a => !q a)).countP p := by
  rw [← List.countP_append]
  exact ((List.filter_append_perm q l).countP_eq p).symm

/-! ## Correctness of the rescan topological sort -/

theorem hasIncoming_eq_true {remE : List DirectedEdge} {n : Nat} :
    hasIncoming remE n = true ↔ ∃ e ∈ remE, e.dst = n := by
  simp [hasIncoming]

theorem mem_rescanToGo {remE : List DirectedEdge} {remN : List Nat} {n : Nat} :
    n ∈ rescanToGo remE remN ↔ n ∈ remN ∧ hasIncoming remE n = false := by
  simp [rescanToGo, List.mem_filter]

theorem rescanLoop_zero (remE : List DirectedEdge) (remN acc : List Nat) :
    rescanLoop 0 remE remN acc = (true, acc) := rfl

theorem rescanLoop_nil (f : Nat) (remE : List DirectedEdge) (acc : List Nat) :
    rescanLoop (f + 1) remE [] acc = (true, acc) := by
  rw [rescanLoop]
  simp

theorem rescanLoop_stuck (f : Nat) (remE : List DirectedEdge) (remN acc : List Nat)
    (hN : remN ≠ []) (hg : rescanToGo remE remN = []) :
    rescanLoop (f + 1) remE remN acc = (false, acc) := by
  rw [rescanLoop, if_neg hN, if_pos hg]

theorem rescanLoop_step (f : Nat) (remE : List DirectedEdge) (remN acc : List Nat)
    (hN : remN ≠ []) (hg : rescanToGo remE remN ≠ []) :
    rescanLoop (f + 1) remE remN acc =
      rescanLoop f
        (remE.filter (fun e => !decide (e.src ∈ rescanToGo remE remN)))
        (remN.filter (fun n => !decide (n ∈ rescanToGo remE remN)))
        (acc ++ rescanToGo remE remN) := by
  conv_lhs => rw [rescanLoop]
  rw [if_neg hN, if_neg hg]

theorem rescanLoop_spec (edges : List DirectedEdge) (allN : List Nat)
    (hallNd : allN.Nodup)
    (hsrc : ∀ e ∈ edges, e.src ∈ allN)
    (hdst : ∀ e ∈ edges, e.dst ∈ allN) :
    ∀ (k : Nat) (remE : List DirectedEdge) (remN acc : List Nat),
      remN.length ≤ k →
      List.Perm (acc ++ remN) allN →
      (∀ e, e ∈ remE ↔ e ∈ edges ∧ e.src ∉ acc) →
      (∀ e ∈ edges, e.dst ∈ acc →
        e.src ∈ acc ∧ acc.indexOf e.src < acc.indexOf e.dst) →
      ((rescanLoop k remE remN acc).1 = true →
          List.Perm (rescanLoop k remE remN acc).2 allN ∧
          ∀ e ∈ edges, (rescanLoop k remE remN acc).2.indexOf e.src <
            (rescanLoop k remE remN acc).2.indexOf e.dst) ∧
      ((rescanLoop k remE remN acc).1 = false →
          ∃ n, Relation.TransGen (edgeMem edges) n n) := by
  intro k
  induction k with
  | zero =>
    intro remE remN acc hlen hperm h2 h3
    have hN : remN = [] := List.length_eq_zero.mp (Nat.le_zero.mp hlen)
    subst hN
    rw [rescanLoop_zero]
    constructor
    · intro _
      have hpa : List.Perm acc allN := by simpa using hperm
      refine ⟨hpa, ?_⟩
      intro e he
      have hdm : e.dst ∈ acc := hpa.mem_iff.mpr (hdst e he)
      exact (h3 e he hdm).2
    · intro hfalse
      simp at hfalse
  | succ k ih =>
    intro remE remN acc hlen hperm h2 h3
    by_cases hN : remN = []
    · subst hN
      rw [rescanLoop_nil]
      constructor
      · intro _
        have hpa : List.Perm acc allN := by simpa using hperm
        refine ⟨hpa, ?_⟩
        intro e he
        have hdm : e.dst ∈ acc := hpa.mem_iff.mpr (hdst e he)
        exact (h3 e he hdm).2
      · intro hfalse
        simp at hfalse
    · by_cases hg : rescanToGo remE remN = []
      · rw [rescanLoop_stuck k remE remN acc hN hg]
        constructor
        · intro htrue
          simp at htrue
        · intro _
          apply exists_cycle_of_preds edges remN.toFinset
          · obtain ⟨x, hx⟩ := List.exists_mem_of_ne_nil remN hN
            exact ⟨x, List.mem_toFinset.mpr hx⟩
          · intro n hn
            have hnr : n ∈ remN := List.mem_toFinset.mp hn
            have hInc : hasIncoming remE n = true := by
              by_contra hI
              have hIf : hasIncoming remE n = false := by
                cases hb : hasIncoming remE n
                · rfl
                · exact absurd hb hI
              have : n ∈ rescanToGo remE remN := mem_rescanToGo.mpr ⟨hnr, hIf⟩
              rw [hg] at this
              cases this
            obtain ⟨e, he, hedst⟩ := hasIncoming_eq_true.mp hInc
            have h2e := (h2 e).mp he
            have hsa : e.src ∈ allN := hsrc e h2e.1
            have hsA : e.src ∈ acc ++ remN := hperm.mem_iff.mpr hsa
            have hsrem : e.src ∈ remN := by
              rcases List.mem_append.mp hsA with hA | hR
              · exact absurd hA h2e.2
              · exact hR
            exact ⟨e.src, List.mem_toFinset.mpr hsrem, ⟨e, h2e.1, rfl, hedst⟩⟩
      · have hAppNd : (acc ++ remN).Nodup := hperm.symm.nodup hallNd
        rcases List.nodup_append.mp hAppNd with ⟨haccNd, hremNd, hdisj⟩
        have htoGoSub : ∀ n ∈ rescanToGo remE remN, n ∈ remN :=
          fun n hn => List.mem_of_mem_filter hn
        have htoGoNoInc : ∀ n ∈ rescanToGo remE remN,
            hasIncoming remE n = false :=
          fun n hn => (mem_rescanToGo.mp hn).2
        have hsplit : List.Perm
            (rescanToGo remE remN ++
              remN.filter (fun n => !decide (n ∈ rescanToGo remE remN))) remN := by
          have hcongr : remN.filter (fun n => !decide (n ∈ rescanToGo remE remN)) =
              remN.filter (fun n => !(!hasIncoming remE n)) := by
            apply List.filter_congr
            intro n hn
            cases hI : hasIncoming remE n
            · have hmem : n ∈ rescanToGo remE remN := mem_rescanToGo.mpr ⟨hn, hI⟩
              simp [hmem]
            · have hnm : n ∉ rescanToGo remE remN := by
                intro hm
                have := (mem_rescanToGo.mp hm).2
                rw [hI] at this
                cases this
              simp [hnm]
          rw [hcongr]
          exact List.filter_append_perm (fun n => !hasIncoming remE n) remN
        have hperm2 : List.Perm
            ((acc ++ rescanToGo remE remN) ++
              remN.filter (fun n => !decide (n ∈ rescanToGo remE remN))) allN := by
          rw [List.append_assoc]
          exact (List.Perm.append_left acc hsplit).trans hperm
        have h2sub : ∀ e, e ∈ remE.filter
              (fun e => !decide (e.src ∈ rescanToGo remE remN)) ↔
            e ∈ edges ∧ e.src ∉ acc ++ rescanToGo remE remN := by
          intro e
          rw [List.mem_filter, h2 e]
          simp only [Bool.not_eq_true', decide_eq_false_iff_not, List.mem_append]
          tauto
        have h3sub : ∀ e ∈ edges, e.dst ∈ acc ++ rescanToGo remE remN →
            e.src ∈ acc ++ rescanToGo remE remN ∧
            (acc ++ rescanToGo remE remN).indexOf e.src <
              (acc ++ rescanToGo remE remN).indexOf e.dst := by
          intro e he hdsta
          rcases List.mem_append.mp hdsta with hda | hdg
          · have h3e := h3 e he hda
            refine ⟨List.mem_append.mpr (Or.inl h3e.1), ?_⟩
            rw [List.indexOf_append_of_mem h3e.1, List.indexOf_append_of_mem hda]
            exact h3e.2
          · have hdr : e.dst ∈ remN := htoGoSub _ hdg
            have hdnacc : e.dst ∉ acc := fun hmem => hdisj hmem hdr
            have hnoinc := htoGoNoInc _ hdg
            have henr : e ∉ remE := by
              intro her
              have : hasIncoming remE e.dst = true :=
                hasIncoming_eq_true.mpr ⟨e, her, rfl⟩
              rw [hnoinc] at this
              cases this
            have hsacc : e.src ∈ acc := by
              by_contra hsn
              exact henr ((h2 e).mpr ⟨he, hsn⟩)
            refine ⟨List.mem_append.mpr (Or.inl hsacc), ?_⟩
            rw [List.indexOf_append_of_mem hsacc,
              List.indexOf_append_of_not_mem hdnacc]
            have hlt : acc.indexOf e.src < acc.length :=
              List.indexOf_lt_length.mpr hsacc
            omega
        have hlen2 : (remN.filter
            (fun n => !decide (n ∈ rescanToGo remE remN))).length ≤ k := by
          have hdec : (remN.filter
              (fun n => !decide (n ∈ rescanToGo remE remN))).length <
              remN.length := by
            rw [List.length_filter_lt_length_iff_exists]
            obtain ⟨x, hx⟩ := List.exists_mem_of_ne_nil _ hg
            exact ⟨x, htoGoSub x hx, by simp [hx]⟩
          omega
        rw [rescanLoop_step k remE remN acc hN hg]
        exact ih _ _ _ hlen2 hperm2 h2sub h3sub

/-- Summary of the rescan variant: the valid flag is true iff the input is
acyclic, and on success the output order is a permutation of all nodes in
which every edge goes forward. -/
theorem topoRescan_spec (edges : List DirectedEdge) (nodes : List Nat) :
    ((topoRescan edges nodes).1 = true ↔ Acyclic edges) ∧
    ((topoRescan edges nodes).1 = true →
      List.Perm (topoRescan edges nodes).2 (gatherNodes edges nodes) ∧
      ∀ e ∈ edges, (topoRescan edges nodes).2.indexOf e.src <
        (topoRescan edges nodes).2.indexOf e.dst) := by
  have hspec := rescanLoop_spec edges (gatherNodes edges nodes)
    (gatherNodes_nodup edges nodes)
    (fun e he => src_mem_gatherNodes he)
    (fun e he => dst_mem_gatherNodes he)
    (gatherNodes edges nodes).length
    (sortEdgesByDst edges) (gatherNodes edges nodes) []
    (Nat.le_refl _)
    (by simp)
    (by intro e; rw [mem_sortEdgesByDst]; simp)
    (by intro e _ hdst; cases hdst)
  have h1 : (topoRescan edges nodes).1 =
      (rescanLoop (gatherNodes edges nodes).length (sortEdgesByDst edges) (gatherNodes edges nodes) []).1 := by
    simp [topoRescan]
  have hacyc : (topoRescan edges nodes).1 = true ↔ Acyclic edges := by
    constructor
    · intro ht
      rw [h1] at ht
      obtain ⟨hpm, hord⟩ := hspec.1 ht
      apply acyclic_of_order edges
        (rescanLoop (gatherNodes edges nodes).length (sortEdgesByDst edges) (gatherNodes edges nodes) []).2
      intro e he
      exact ⟨hpm.mem_iff.mpr (src_mem_gatherNodes he),
        hpm.mem_iff.mpr (dst_mem_gatherNodes he), hord e he⟩
    · intro hac
      by_contra hne
      have hfalse : (topoRescan edges nodes).1 = false := by
        cases hb : (topoRescan edges nodes).1
        · rfl
        · exact absurd hb hne
      rw [h1] at hfalse
      obtain ⟨n, hn⟩ := hspec.2 hfalse
      exact hac n hn
  refine ⟨hacyc, ?_⟩
  intro ht
  have ht1 := ht
  rw [h1] at ht1
  obtain ⟨hpm, hord⟩ := hspec.1 ht1
  have h2 : (topoRescan edges nodes).2 =
      (rescanLoop (gatherNodes edges nodes).length (sortEdgesByDst edges) (gatherNodes edges nodes) []).2 := by
    simp only [topoRescan]
    rw [if_pos ht1]
  rw [h2]
  exact ⟨hpm, hord⟩

/-! ## Correctness of the Kahn topological sort -/

theorem qcount_nil (n : Nat) : qcount [] n = 0 := rfl

theorem qcount_cons (a : Nat) (q : List Nat) (n : Nat) :
    qcount (a :: q) n = qcount q n + if a = n then 1 else 0 := by
  simp [qcount, List.countP_cons]

theorem qcount_append (q1 q2 : List Nat) (n : Nat) :
    qcount (q1 ++ q2) n = qcount q1 n + qcount q2 n := by
  simp [qcount]

theorem qcount_flatMap (f : Nat → List Nat) (n : Nat) :
    ∀ l : List Nat, qcount (l.flatMap f) n = (l.map (fun r => qcount (f r) n)).sum := by
  intro l
  induction l with
  | nil => rfl
  | cons a t ih => simp [List.flatMap_cons, qcount_append, ih]

theorem mem_outEdgeDsts {ebs : List DirectedEdge} {v x : Nat} :
    x ∈ outEdgeDsts ebs v ↔ ∃ e ∈ ebs, e.src = v ∧ e.dst = x := by
  simp [outEdgeDsts]
  constructor
  · rintro ⟨e, ⟨he, hs⟩, hd⟩
    exact ⟨e, he, hs, hd⟩
  · rintro ⟨e, he, hs, hd⟩
    exact ⟨e, ⟨he, hs⟩, hd⟩

theorem length_outEdgeDsts_le (edges : List DirectedEdge) (v : Nat) :
    (outEdgeDsts (sortEdgesBySrc edges) v).length ≤ edges.length := by
  have h1 : (outEdgeDsts (sortEdgesBySrc edges) v).length ≤
      (sortEdgesBySrc edges).length := by
    simp only [outEdgeDsts, List.length_map]
    exact List.length_filter_le _ _
  have h2 := (sortEdgesBySrc_perm edges).length_eq
  omega

theorem qcount_outEdgeDsts (edges : List DirectedEdge) (v n : Nat) :
    qcount (outEdgeDsts (sortEdgesBySrc edges) v) n =
      edges.countP (fun e => decide (e.src = v) && decide (e.dst = n)) := by
  unfold qcount outEdgeDsts
  rw [List.countP_map, List.countP_filter]
  rw [(sortEdgesBySrc_perm edges).countP_eq]
  apply List.countP_congr
  intro e _
  simp [Function.comp]
  tauto

theorem unmet_split (out : List Nat) (v n : Nat) (hv : v ∉ out) :
    ∀ l : List DirectedEdge,
      unmetCount l out n = unmetCount l (out ++ [v]) n +
        l.countP (fun e => decide (e.src = v) && decide (e.dst = n)) := by
  intro l
  induction l with
  | nil => rfl
  | cons e t ih =>
    simp only [unmetCount] at ih ⊢
    rw [List.countP_cons, List.countP_cons, List.countP_cons, ih]
    have hb2 : ((decide (e.dst = n) && !decide (e.src ∈ out ++ [v])) = true) ↔
        (e.dst = n ∧ ¬(e.src ∈ out ∨ e.src = v)) := by
      simp [List.mem_append]
    simp only [Bool.and_eq_true, Bool.not_eq_true', decide_eq_false_iff_not,
      decide_eq_true_eq, hb2]
    by_cases h1 : e.dst = n
    · by_cases h2 : e.src = v
      · have h3 : e.src ∉ out := fun hm => hv (h2 ▸ hm)
        simp [h1, h2, h3, hv]
        try omega
      · by_cases h3 : e.src ∈ out
        · simp [h1, h2, h3, hv]
          try omega
        · simp [h1, h2, h3, hv]
          try omega
    · simp [h1]
      try omega

theorem unmet_le_of_append (l : List DirectedEdge) (out : List Nat) (v n : Nat) :
    unmetCount l (out ++ [v]) n ≤ unmetCount l out n := by
  apply List.countP_mono_left
  intro e _ h
  simp only [Bool.and_eq_true, Bool.not_eq_true', decide_eq_false_iff_not,
    decide_eq_true_eq, List.mem_append] at h ⊢
  exact ⟨h.1, fun hm => h.2 (Or.inl hm)⟩

theorem le_sum_map (f : Nat → Nat) :
    ∀ (l : List Nat) (v : Nat), v ∈ l → f v ≤ (l.map f).sum := by
  intro l
  induction l with
  | nil => intro v hv; cases hv
  | cons a t ih =>
    intro v hv
    rcases List.mem_cons.mp hv with rfl | hv2
    · simp
    · have := ih v hv2
      simp only [List.map_cons, List.sum_cons]
      omega

theorem initCounts_apply (n : Nat) :
    ∀ (l : List DirectedEdge) (f : Nat → Nat),
      (l.foldl (fun f e => setCount f e.dst (f e.dst + 1)) f) n =
        f n + l.countP (fun e => decide (e.dst = n)) := by
  intro l
  induction l with
  | nil => intro f; simp
  | cons e t ih =>
    intro f
    rw [List.foldl_cons, ih, List.countP_cons]
    by_cases h : e.dst = n
    · simp [setCount, h]
      omega
    · have hne : n ≠ e.dst := fun hh => h hh.symm
      simp [setCount, h, hne]

theorem initCounts_eq (edges : List DirectedEdge) (n : Nat) :
    initCounts (sortEdgesByDst edges) n =
      edges.countP (fun e => decide (e.dst = n)) := by
  unfold initCounts
  rw [initCounts_apply, (sortEdgesByDst_perm edges).countP_eq]
  simp

theorem sum_countP_roots (edges : List DirectedEdge) (n : Nat) :
    ∀ (roots : List Nat), roots.Nodup →
      (roots.map (fun r => edges.countP
          (fun e => decide (e.src = r) && decide (e.dst = n)))).sum =
        edges.countP (fun e => decide (e.src ∈ roots) && decide (e.dst = n)) := by
  intro roots
  induction roots with
  | nil =>
    intro _
    simp
  | cons r rs ih =>
    intro hnd
    rw [List.nodup_cons] at hnd
    simp only [List.map_cons, List.sum_cons, ih hnd.2]
    have hsplit := countP_split edges
      (fun e => decide (e.src ∈ r :: rs) && decide (e.dst = n))
      (fun e => decide (e.src = r))
    rw [List.countP_filter, List.countP_filter] at hsplit
    rw [hsplit]
    have e1 : edges.countP (fun e =>
        (decide (e.src ∈ r :: rs) && decide (e.dst = n)) && decide (e.src = r)) =
        edges.countP (fun e => decide (e.src = r) && decide (e.dst = n)) := by
      apply List.countP_congr
      intro e _
      by_cases h1 : e.src = r <;> by_cases h2 : e.dst = n <;>
        simp [h1, h2, List.mem_cons]
    have e2 : edges.countP (fun e =>
        (decide (e.src ∈ r :: rs) && decide (e.dst = n)) && !decide (e.src = r)) =
        edges.countP (fun e => decide (e.src ∈ rs) && decide (e.dst = n)) := by
      apply List.countP_congr
      intro e _
      by_cases h1 : e.src = r
      · simp [h1, hnd.1]
      · by_cases h3 : e.src ∈ rs <;> simp [h1, h3, List.mem_cons]
    rw [e1, e2]

theorem kahnLoop_zero (ebs : List DirectedEdge) (counts : Nat → Nat)
    (queue out : List Nat) :
    kahnLoop ebs 0 counts queue out = (counts, queue, out) := rfl

theorem kahnLoop_nilq (ebs : List DirectedEdge) (f : Nat) (counts : Nat → Nat)
    (out : List Nat) :
    kahnLoop ebs (f + 1) counts [] out = (counts, [], out) := rfl

theorem kahnLoop_cons (ebs : List DirectedEdge) (f : Nat) (counts : Nat → Nat)
    (v : Nat) (q out : List Nat) :
    kahnLoop ebs (f + 1) counts (v :: q) out =
      if counts v = 1 then
        kahnLoop ebs f (setCount counts v 0) (q ++ outEdgeDsts ebs v) (out ++ [v])
      else
        kahnLoop ebs f (setCount counts v (counts v - 1)) q out := rfl

theorem kahnLoop_spec (edges : List DirectedEdge) (allN : List Nat)
    (hallNd : allN.Nodup) (hdstN : ∀ e ∈ edges, e.dst ∈ allN) :
    ∀ (fuel : Nat) (counts : Nat → Nat) (queue out : List Nat),
      kahnFuel edges counts allN queue ≤ fuel →
      KahnInv edges allN counts queue out →
      (kahnLoop (sortEdgesBySrc edges) fuel counts queue out).2.1 = [] ∧
      KahnInv edges allN
        (kahnLoop (sortEdgesBySrc edges) fuel counts queue out).1
        (kahnLoop (sortEdgesBySrc edges) fuel counts queue out).2.1
        (kahnLoop (sortEdgesBySrc edges) fuel counts queue out).2.2 := by
  intro fuel
  induction fuel with
  | zero =>
    intro counts queue out hfuel hinv
    have hq : queue = [] := by
      have hlen : queue.length = 0 := by
        unfold kahnFuel at hfuel
        omega
      exact List.length_eq_zero.mp hlen
    subst hq
    rw [kahnLoop_zero]
    exact ⟨rfl, hinv⟩
  | succ f ih =>
    intro counts queue out hfuel hinv
    obtain ⟨hJ1, hNd, hSub, hK2, hK3, hK6, hK7⟩ := hinv
    cases queue with
    | nil =>
      rw [kahnLoop_nilq]
      exact ⟨rfl, hJ1, hNd, hSub, hK2, hK3, hK6, hK7⟩
    | cons v rest =>
      obtain ⟨ev, hev, hevdst⟩ := hJ1 v (List.mem_cons_self v rest)
      have hvAll : v ∈ allN := hevdst ▸ hdstN ev hev
      have hK2v := hK2 v hvAll
      rw [qcount_cons, if_pos rfl] at hK2v
      have hcv1 : 1 ≤ counts v := by omega
      have hvout : v ∉ out := by
        intro hm
        have := hK6 v hm
        omega
      rw [kahnLoop_cons]
      by_cases h1 : counts v = 1
      · rw [if_pos h1]
        have hq0 : qcount rest v = 0 := by omega
        have hu0 : unmetCount edges out v = 0 := by omega
        have husplit : ∀ n, unmetCount edges out n =
            unmetCount edges (out ++ [v]) n +
              edges.countP (fun e => decide (e.src = v) && decide (e.dst = n)) :=
          fun n => unmet_split out v n hvout edges
        have hselfz : edges.countP
            (fun e => decide (e.src = v) && decide (e.dst = v)) = 0 := by
          have := husplit v
          omega
        have hu2z : unmetCount edges (out ++ [v]) v = 0 := by
          have := husplit v
          omega
        apply ih
        · unfold kahnFuel at hfuel ⊢
          have hsum := sum_map_setCount counts v 0 allN hvAll hallNd
          have hlenq := length_outEdgeDsts_le edges v
          have hmul : (allN.map counts).sum * (edges.length + 2) =
              (allN.map (setCount counts v 0)).sum * (edges.length + 2) +
                (edges.length + 2) := by
            have hs : (allN.map counts).sum =
                (allN.map (setCount counts v 0)).sum + 1 := by omega
            rw [hs]
            ring
          simp only [List.length_append, List.length_cons] at hfuel ⊢
          omega
        · refine ⟨?_, ?_, ?_, ?_, ?_, ?_, ?_⟩
          · intro x hx
            rcases List.mem_append.mp hx with hxr | hxo
            · exact hJ1 x (List.mem_cons_of_mem v hxr)
            · obtain ⟨e, he, _, hd⟩ := mem_outEdgeDsts.mp hxo
              exact ⟨e, mem_sortEdgesBySrc.mp he, hd⟩
          · refine List.nodup_append.mpr ⟨hNd, List.nodup_singleton v, ?_⟩
            intro a ha hav
            rw [List.mem_singleton] at hav
            exact hvout (hav ▸ ha)
          · intro x hx
            rcases List.mem_append.mp hx with hxo | hxv
            · exact hSub x hxo
            · rw [List.mem_singleton] at hxv
              exact hxv ▸ hvAll
          · intro n hnAll
            rw [qcount_append, qcount_outEdgeDsts]
            by_cases hnv : n = v
            · subst hnv
              have hc2 : setCount counts n 0 n = 0 := by simp [setCount]
              rw [hc2, hq0, hselfz, hu2z]
            · have hc2 : setCount counts v 0 n = counts n := by
                simp [setCount, hnv]
              rw [hc2]
              have hk := hK2 n hnAll
              rw [qcount_cons, if_neg (fun h => hnv h.symm)] at hk
              have hs := husplit n
              omega
          · intro e he hdm
            rcases List.mem_append.mp hdm with hdo | hdv
            · obtain ⟨hso, hidx⟩ := hK3 e he hdo
              refine ⟨List.mem_append.mpr (Or.inl hso), ?_⟩
              rw [List.indexOf_append_of_mem hso, List.indexOf_append_of_mem hdo]
              exact hidx
            · rw [List.mem_singleton] at hdv
              have hz := List.countP_eq_zero.mp hu0 e he
              simp only [hdv, decide_True, Bool.true_and, Bool.not_eq_true',
                decide_eq_false_iff_not, Decidable.not_not] at hz
              refine ⟨List.mem_append.mpr (Or.inl hz), ?_⟩
              rw [List.indexOf_append_of_mem hz, hdv,
                List.indexOf_append_of_not_mem hvout, List.indexOf_cons_self]
              have := List.indexOf_lt_length.mpr hz
              omega
          · intro n hn
            rcases List.mem_append.mp hn with hno | hnv
            · have hnev : n ≠ v := fun h => hvout (h ▸ hno)
              have : setCount counts v 0 n = counts n := by simp [setCount, hnev]
              rw [this]
              exact hK6 n hno
            · rw [List.mem_singleton] at hnv
              subst hnv
              simp [setCount]
          · intro n hnAll hnot
            have hno : n ∉ out := fun h => hnot (List.mem_append.mpr (Or.inl h))
            have hnev : n ≠ v := fun h =>
              hnot (List.mem_append.mpr (Or.inr (List.mem_singleton.mpr h)))
            have : setCount counts v 0 n = counts n := by simp [setCount, hnev]
            rw [this]
            exact hK7 n hnAll hno
      · rw [if_neg h1]
        have hge2 : 2 ≤ counts v := by omega
        apply ih
        · unfold kahnFuel at hfuel ⊢
          have hsum := sum_map_setCount counts v (counts v - 1) allN hvAll hallNd
          have hmul : (allN.map counts).sum * (edges.length + 2) =
              (allN.map (setCount counts v (counts v - 1))).sum *
                  (edges.length + 2) + (edges.length + 2) := by
            have hs : (allN.map counts).sum =
                (allN.map (setCount counts v (counts v - 1))).sum + 1 := by omega
            rw [hs]
            ring
          simp only [List.length_cons] at hfuel ⊢
          omega
        · refine ⟨?_, hNd, hSub, ?_, hK3, ?_, ?_⟩
          · intro x hx
            exact hJ1 x (List.mem_cons_of_mem v hx)
          · intro n hnAll
            by_cases hnv : n = v
            · subst hnv
              have hc2 : setCount counts n (counts n - 1) n = counts n - 1 := by
                simp [setCount]
              rw [hc2]
              omega
            · have hc2 : setCount counts v (counts v - 1) n = counts n := by
                simp [setCount, hnv]
              rw [hc2]
              have hk := hK2 n hnAll
              rw [qcount_cons, if_neg (fun h => hnv h.symm)] at hk
              omega
          · intro n hno
            have hnev : n ≠ v := by
              intro h
              have := hK6 n hno
              rw [h] at this
              omega
            have : setCount counts v (counts v - 1) n = counts n := by
              simp [setCount, hnev]
            rw [this]
            exact hK6 n hno
          · intro n hnAll hnot
            by_cases hnv : n = v
            · subst hnv
              have hc2 : setCount counts n (counts n - 1) n = counts n - 1 := by
                simp [setCount]
              rw [hc2]
              omega
            · have hc2 : setCount counts v (counts v - 1) n = counts n := by
                simp [setCount, hnv]
              rw [hc2]
              exact hK7 n hnAll hnot

theorem countP_dst_split_roots (edges : List DirectedEdge) (roots : List Nat)
    (hnd : roots.Nodup) (n : Nat) :
    edges.countP (fun e => decide (e.dst = n)) =
      qcount (roots.flatMap (fun r => outEdgeDsts (sortEdgesBySrc edges) r)) n +
        unmetCount edges roots n := by
  rw [qcount_flatMap]
  rw [List.map_congr_left (fun r _ => qcount_outEdgeDsts edges r n)]
  rw [sum_countP_roots edges n roots hnd]
  unfold unmetCount
  have hsplit := countP_split edges (fun e => decide (e.dst = n))
    (fun e => decide (e.src ∈ roots))
  rw [List.countP_filter, List.countP_filter] at hsplit
  rw [hsplit]
  have e1 : edges.countP (fun e => decide (e.dst = n) && decide (e.src ∈ roots)) =
      edges.countP (fun e => decide (e.src ∈ roots) && decide (e.dst = n)) := by
    apply List.countP_congr
    intro e _
    simp
    tauto
  rw [e1]

/-- The Kahn loop invariant holds at the state `topoKahn` starts the
worklist loop from. -/
theorem kahn_init_inv (edges : List DirectedEdge) (nodes : List Nat) :
    KahnInv edges (gatherNodes edges nodes)
      (initCounts (sortEdgesByDst edges))
      (((gatherNodes edges nodes).filter
          (fun n => decide (initCounts (sortEdgesByDst edges) n = 0))).flatMap
        (fun r => outEdgeDsts (sortEdgesBySrc edges) r))
      ((gatherNodes edges nodes).filter
        (fun n => decide (initCounts (sortEdgesByDst edges) n = 0))) := by
  refine ⟨?_, ?_, ?_, ?_, ?_, ?_, ?_⟩
  · intro x hx
    rw [List.mem_flatMap] at hx
    obtain ⟨r, _, hxr⟩ := hx
    obtain ⟨e, he, _, hd⟩ := mem_outEdgeDsts.mp hxr
    exact ⟨e, mem_sortEdgesBySrc.mp he, hd⟩
  · exact (gatherNodes_nodup edges nodes).filter _
  · intro x hx
    exact List.mem_of_mem_filter hx
  · intro n _
    rw [initCounts_eq]
    exact countP_dst_split_roots edges _ ((gatherNodes_nodup edges nodes).filter _) n
  · intro e he hdm
    rw [List.mem_filter] at hdm
    have h0 : edges.countP (fun e2 => decide (e2.dst = e.dst)) = 0 := by
      have := hdm.2
      rw [initCounts_eq] at this
      simpa using this
    have := List.countP_eq_zero.mp h0 e he
    simp at this
  · intro n hn
    rw [List.mem_filter] at hn
    simpa using hn.2
  · intro n hnAll hnot
    have : ¬(initCounts (sortEdgesByDst edges) n = 0) := by
      intro h0
      exact hnot (List.mem_filter.mpr ⟨hnAll, by simpa using h0⟩)
    omega

/-- The worklist loop of `kahnRun` terminates with an empty queue (the fuel
is sufficient), and the loop invariant holds at the final state. -/
theorem kahnRun_spec (edges : List DirectedEdge) (nodes : List Nat) :
    (kahnRun edges nodes).2.1 = [] ∧
    KahnInv edges (gatherNodes edges nodes) (kahnRun edges nodes).1
      (kahnRun edges nodes).2.1 (kahnRun edges nodes).2.2 := by
  unfold kahnRun
  exact kahnLoop_spec edges (gatherNodes edges nodes)
    (gatherNodes_nodup edges nodes) (fun e he => dst_mem_gatherNodes he)
    _ _ _ _ (Nat.le_refl _) (kahn_init_inv edges nodes)

/-- Summary of the Kahn variant: the valid flag is true iff the input is
acyclic, and on success the output order is a permutation of all nodes in
which every edge goes forward. -/
theorem topoKahn_spec (edges : List DirectedEdge) (nodes : List Nat) :
    ((topoKahn edges nodes).1 = true ↔ Acyclic edges) ∧
    ((topoKahn edges nodes).1 = true →
      List.Perm (topoKahn edges nodes).2 (gatherNodes edges nodes) ∧
      ∀ e ∈ edges, (topoKahn edges nodes).2.indexOf e.src <
        (topoKahn edges nodes).2.indexOf e.dst) := by
  obtain ⟨hqnil, hinv⟩ := kahnRun_spec edges nodes
  obtain ⟨_, fNd, fSub, fK2, fK3, _, fK7⟩ := hinv
  rw [hqnil] at fK2
  have hvalid : (topoKahn edges nodes).1 = true ↔
      (kahnRun edges nodes).2.2.length = (gatherNodes edges nodes).length := by
    simp [topoKahn]
  have hout : (topoKahn edges nodes).1 = true →
      (topoKahn edges nodes).2 = (kahnRun edges nodes).2.2 := by
    intro ht
    have hlen := hvalid.mp ht
    simp [topoKahn, hlen]
  constructor
  · constructor
    · intro ht
      have hlen := hvalid.mp ht
      have hsp := List.subperm_of_subset fNd (fun x hx => fSub x hx)
      have hperm := hsp.perm_of_length_le (Nat.le_of_eq hlen.symm)
      apply acyclic_of_order edges (kahnRun edges nodes).2.2
      intro e he
      exact ⟨hperm.mem_iff.mpr (src_mem_gatherNodes he),
        hperm.mem_iff.mpr (dst_mem_gatherNodes he),
        (fK3 e he (hperm.mem_iff.mpr (dst_mem_gatherNodes he))).2⟩
    · intro hac
      by_contra hne
      have hlenne : ¬((kahnRun edges nodes).2.2.length =
          (gatherNodes edges nodes).length) := fun h => hne (hvalid.mpr h)
      have hexists : ∃ n ∈ gatherNodes edges nodes,
          n ∉ (kahnRun edges nodes).2.2 := by
        by_contra hall
        push_neg at hall
        have hsp1 := List.subperm_of_subset (gatherNodes_nodup edges nodes)
          (fun x hx => hall x hx)
        have hsp2 := List.subperm_of_subset fNd (fun x hx => fSub x hx)
        have hle1 := hsp1.length_le
        have hle2 := hsp2.length_le
        omega
      obtain ⟨n0, hn0All, hn0out⟩ := hexists
      obtain ⟨m, hm⟩ := exists_cycle_of_preds edges
        ((gatherNodes edges nodes).filter
          (fun n => !decide (n ∈ (kahnRun edges nodes).2.2))).toFinset
        ⟨n0, List.mem_toFinset.mpr
          (List.mem_filter.mpr ⟨hn0All, by simpa using hn0out⟩)⟩
        (by
          intro n hn
          rw [List.mem_toFinset, List.mem_filter] at hn
          obtain ⟨hnAll, hnout⟩ := hn
          rw [Bool.not_eq_true', decide_eq_false_iff_not] at hnout
          have h7 := fK7 n hnAll hnout
          have h2 := fK2 n hnAll
          rw [qcount_nil] at h2
          have hpos : 0 < unmetCount edges (kahnRun edges nodes).2.2 n := by
            omega
          rw [unmetCount] at hpos
          obtain ⟨e, he, hpe⟩ := List.countP_pos_iff.mp hpos
          simp only [Bool.and_eq_true, Bool.not_eq_true', decide_eq_false_iff_not,
            decide_eq_true_eq] at hpe
          refine ⟨e.src, ?_, ⟨e, he, rfl, hpe.1⟩⟩
          rw [List.mem_toFinset, List.mem_filter]
          exact ⟨src_mem_gatherNodes he, by simpa using hpe.2⟩)
      exact hac m hm
  · intro ht
    have hlen := hvalid.mp ht
    rw [hout ht]
    have hsp := List.subperm_of_subset fNd (fun x hx => fSub x hx)
    have hperm := hsp.perm_of_length_le (Nat.le_of_eq hlen.symm)
    refine ⟨hperm, ?_⟩
    intro e he
    exact (fK3 e he (hperm.mem_iff.mpr (dst_mem_gatherNodes he))).2

/-! ## The closure queries -/

theorem scanInsert_nil (out stack : List Nat) :
    scanInsert [] out stack = (out, stack) := rfl

theorem scanInsert_cons (x : Nat) (xs out stack : List Nat) :
    scanInsert (x :: xs) out stack =
      if x ∈ out then scanInsert xs out stack
      else scanInsert xs (List.orderedInsert (fun a b => a ≤ b) x out)
        (x :: stack) := rfl

theorem scanInsert_spec : ∀ (vals out stack : List Nat),
    out.Sorted (fun a b => a ≤ b) → out.Nodup →
    ((scanInsert vals out stack).1.Sorted (fun a b => a ≤ b) ∧
     (scanInsert vals out stack).1.Nodup ∧
     (∀ x, x ∈ (scanInsert vals out stack).1 ↔ x ∈ out ∨ x ∈ vals) ∧
     (∀ x ∈ (scanInsert vals out stack).2, x ∈ stack ∨ x ∈ vals)) := by
  intro vals
  induction vals with
  | nil =>
    intro out stack hs hnd
    rw [scanInsert_nil]
    exact ⟨hs, hnd, fun x => by simp, fun x hx => Or.inl hx⟩
  | cons v vs ih =>
    intro out stack hs hnd
    rw [scanInsert_cons]
    by_cases hmem : v ∈ out
    · rw [if_pos hmem]
      obtain ⟨s1, s2, s3, s4⟩ := ih out stack hs hnd
      refine ⟨s1, s2, ?_, ?_⟩
      · intro x
        rw [s3 x]
        constructor
        · rintro (h | h)
          · exact Or.inl h
          · exact Or.inr (List.mem_cons_of_mem v h)
        · rintro (h | h)
          · exact Or.inl h
          · rcases List.mem_cons.mp h with rfl | h2
            · exact Or.inl hmem
            · exact Or.inr h2
      · intro x hx
        rcases s4 x hx with h | h
        · exact Or.inl h
        · exact Or.inr (List.mem_cons_of_mem v h)
    · rw [if_neg hmem]
      have hs2 : (List.orderedInsert (fun a b => a ≤ b) v out).Sorted
          (fun a b => a ≤ b) := hs.orderedInsert v out
      have hnd2 : (List.orderedInsert (fun a b => a ≤ b) v out).Nodup :=
        (List.perm_orderedInsert _ v out).symm.nodup
          (List.nodup_cons.mpr ⟨hmem, hnd⟩)
      obtain ⟨s1, s2, s3, s4⟩ := ih _ (v :: stack) hs2 hnd2
      refine ⟨s1, s2, ?_, ?_⟩
      · intro x
        rw [s3 x, List.mem_orderedInsert]
        constructor
        · rintro ((h | h) | h)
          · exact Or.inr (h ▸ List.mem_cons_self v vs)
          · exact Or.inl h
          · exact Or.inr (List.mem_cons_of_mem v h)
        · rintro (h | h)
          · exact Or.inl (Or.inr h)
          · rcases List.mem_cons.mp h with rfl | h2
            · exact Or.inl (Or.inl rfl)
            · exact Or.inr h2
      · intro x hx
        rcases s4 x hx with h | h
        · rcases List.mem_cons.mp h with rfl | h2
          · exact Or.inr (List.mem_cons_self x vs)
          · exact Or.inl h2
        · exact Or.inr (List.mem_cons_of_mem v h)

theorem closureLoop_zero (edges : List DirectedEdge)
    (keyf valf : DirectedEdge → Nat) (out stack : List Nat) :
    closureLoop edges keyf valf 0 out stack = (out, stack) := rfl

theorem closureLoop_nilstack (edges : List DirectedEdge)
    (keyf valf : DirectedEdge → Nat) (f : Nat) (out : List Nat) :
    closureLoop edges keyf valf (f + 1) out [] = (out, []) := rfl

theorem closureLoop_cons (edges : List DirectedEdge)
    (keyf valf : DirectedEdge → Nat) (f : Nat) (cur : Nat) (rest out : List Nat) :
    closureLoop edges keyf valf (f + 1) out (cur :: rest) =
      closureLoop edges keyf valf f
        (scanInsert ((edges.filter (fun e => decide (keyf e = cur))).map valf)
          out rest).1
        (scanInsert ((edges.filter (fun e => decide (keyf e = cur))).map valf)
          out rest).2 := rfl

theorem transGen_flip {r : Nat → Nat → Prop} {a b : Nat}
    (h : Relation.TransGen (fun u v => r v u) a b) :
    Relation.TransGen r b a := by
  induction h with
  | single h => exact Relation.TransGen.single h
  | tail _ h ih => exact Relation.TransGen.head h ih

theorem closureLoop_spec (edges : List DirectedEdge)
    (keyf valf : DirectedEdge → Nat) (R : Nat → Nat → Prop)
    (hstep : ∀ e ∈ edges, R (valf e) (keyf e)) (n : Nat) :
    ∀ (fuel : Nat) (out stack : List Nat),
      out.Sorted (fun a b => a ≤ b) → out.Nodup →
      (∀ x ∈ out, Relation.TransGen R x n) →
      (∀ x ∈ stack, x = n ∨ Relation.TransGen R x n) →
      (∀ x ∈ out, ∃ e ∈ edges, valf e = x) →
      ((closureLoop edges keyf valf fuel out stack).1.Sorted (fun a b => a ≤ b) ∧
       (closureLoop edges keyf valf fuel out stack).1.Nodup ∧
       (∀ x ∈ (closureLoop edges keyf valf fuel out stack).1,
         Relation.TransGen R x n) ∧
       (∀ x ∈ (closureLoop edges keyf valf fuel out stack).1,
         ∃ e ∈ edges, valf e = x)) := by
  intro fuel
  induction fuel with
  | zero =>
    intro out stack hs hnd hout _ hval
    rw [closureLoop_zero]
    exact ⟨hs, hnd, hout, hval⟩
  | succ f ih =>
    intro out stack hs hnd hout hstack hval
    cases stack with
    | nil =>
      rw [closureLoop_nilstack]
      exact ⟨hs, hnd, hout, hval⟩
    | cons cur rest =>
      rw [closureLoop_cons]
      obtain ⟨s1, s2, s3, s4⟩ := scanInsert_spec
        ((edges.filter (fun e => decide (keyf e = cur))).map valf) out rest hs hnd
      have hfound : ∀ x ∈ (edges.filter
          (fun e => decide (keyf e = cur))).map valf,
          Relation.TransGen R x n ∧ ∃ e ∈ edges, valf e = x := by
        intro x hx
        rw [List.mem_map] at hx
        obtain ⟨e, hef, hex⟩ := hx
        rw [List.mem_filter] at hef
        have hkey : keyf e = cur := by simpa using hef.2
        have hr : R x cur := hex ▸ hkey ▸ hstep e hef.1
        have htg : Relation.TransGen R x n := by
          rcases hstack cur (List.mem_cons_self cur rest) with rfl | htc
          · exact Relation.TransGen.single hr
          · exact Relation.TransGen.head hr htc
        exact ⟨htg, e, hef.1, hex⟩
      apply ih
      · exact s1
      · exact s2
      · intro x hx
        rcases (s3 x).mp hx with h | h
        · exact hout x h
        · exact (hfound x h).1
      · intro x hx
        rcases s4 x hx with h | h
        · exact hstack x (List.mem_cons_of_mem cur h)
        · exact Or.inr (hfound x h).1
      · intro x hx
        rcases (s3 x).mp hx with h | h
        · exact hval x h
        · exact (hfound x h).2

theorem buildVariant_valid_iff (b : Bool) (edges : List DirectedEdge)
    (nodes : List Nat) :
    ((buildVariant b edges nodes).valid = true ↔ Acyclic edges) := by
  cases b
  · exact (topoRescan_spec edges nodes).1
  · exact (topoKahn_spec edges nodes).1

theorem buildVariant_all_nodes (b : Bool) (edges : List DirectedEdge)
    (nodes : List Nat) :
    (buildVariant b edges nodes).all_nodes = gatherNodes edges nodes := by
  cases b <;> rfl

theorem buildVariant_edges_by_dst (b : Bool) (edges : List DirectedEdge)
    (nodes : List Nat) :
    (buildVariant b edges nodes).edges_by_dst = sortEdgesByDst edges := by
  cases b <;> rfl

theorem buildVariant_edges_by_src (b : Bool) (edges : List DirectedEdge)
    (nodes : List Nat) :
    (buildVariant b edges nodes).edges_by_src = sortEdgesBySrc edges := by
  cases b <;> rfl

theorem findAllBefore_spec (b : Bool) (edges : List DirectedEdge)
    (nodes : List Nat) (n : Nat)
    (hv : (buildVariant b edges nodes).valid = true) :
    (findAllBefore (buildVariant b edges nodes) n).1 = true ∧
    (findAllBefore (buildVariant b edges nodes) n).2.Nodup ∧
    (∀ x ∈ (findAllBefore (buildVariant b edges nodes) n).2,
      Relation.TransGen (edgeMem edges) x n ∧ x ∈ gatherNodes edges nodes) := by
  have hq : findAllBefore (buildVariant b edges nodes) n =
      (true, (closureLoop (buildVariant b edges nodes).edges_by_dst
        (fun e => e.dst) (fun e => e.src)
        (closureFuel (buildVariant b edges nodes).edges_by_dst (fun e => e.src))
        [] [n]).1) := by
    simp [findAllBefore, hv]
  rw [hq, buildVariant_edges_by_dst]
  obtain ⟨s1, s2, s3, s4⟩ := closureLoop_spec (sortEdgesByDst edges)
    (fun e => e.dst) (fun e => e.src) (edgeMem edges)
    (fun e he => ⟨e, mem_sortEdgesByDst.mp he, rfl, rfl⟩) n
    (closureFuel (sortEdgesByDst edges) (fun e => e.src)) [] [n]
    (by simp) (by simp) (by simp)
    (by intro x hx; rw [List.mem_singleton] at hx; exact Or.inl hx)
    (by simp)
  refine ⟨rfl, s2, ?_⟩
  intro x hx
  obtain ⟨e, he, hex⟩ := s4 x hx
  exact ⟨s3 x hx, hex ▸ src_mem_gatherNodes (mem_sortEdgesByDst.mp he)⟩

theorem findAllAfter_spec (b : Bool) (edges : List DirectedEdge)
    (nodes : List Nat) (n : Nat)
    (hv : (buildVariant b edges nodes).valid = true) :
    (findAllAfter (buildVariant b edges nodes) n).1 = true ∧
    (findAllAfter (buildVariant b edges nodes) n).2.Nodup ∧
    (∀ x ∈ (findAllAfter (buildVariant b edges nodes) n).2,
      Relation.TransGen (edgeMem edges) n x ∧ x ∈ gatherNodes edges nodes) := by
  have hq : findAllAfter (buildVariant b edges nodes) n =
      (true, (closureLoop (buildVariant b edges nodes).edges_by_src
        (fun e => e.src) (fun e => e.dst)
        (closureFuel (buildVariant b edges nodes).edges_by_src (fun e => e.dst))
        [] [n]).1) := by
    simp [findAllAfter, hv]
  rw [hq, buildVariant_edges_by_src]
  obtain ⟨s1, s2, s3, s4⟩ := closureLoop_spec (sortEdgesBySrc edges)
    (fun e => e.src) (fun e => e.dst) (fun u v => edgeMem edges v u)
    (fun e he => ⟨e, mem_sortEdgesBySrc.mp he, rfl, rfl⟩) n
    (closureFuel (sortEdgesBySrc edges) (fun e => e.dst)) [] [n]
    (by simp) (by simp) (by simp)
    (by intro x hx; rw [List.mem_singleton] at hx; exact Or.inl hx)
    (by simp)
  refine ⟨rfl, s2, ?_⟩
  intro x hx
  obtain ⟨e, he, hex⟩ := s4 x hx
  exact ⟨transGen_flip (s3 x hx), hex ▸ dst_mem_gatherNodes (mem_sortEdgesBySrc.mp he)⟩

theorem closureLoop_run_empty (edges : List DirectedEdge)
    (keyf valf : DirectedEdge → Nat) :
    ∀ f : Nat, (closureLoop edges keyf valf f [] []).1 = [] := by
  intro f
  cases f <;> rfl

theorem findAllBefore_empty (b : Bool) (edges : List DirectedEdge)
    (nodes : List Nat) (n : Nat)
    (hv : (buildVariant b edges nodes).valid = true)
    (hno : ∀ e ∈ edges, e.dst ≠ n) :
    findAllBefore (buildVariant b edges nodes) n = (true, []) := by
  have hq : findAllBefore (buildVariant b edges nodes) n =
      (true, (closureLoop (buildVariant b edges nodes).edges_by_dst
        (fun e => e.dst) (fun e => e.src)
        (closureFuel (buildVariant b edges nodes).edges_by_dst (fun e => e.src))
        [] [n]).1) := by
    simp [findAllBefore, hv]
  rw [hq, buildVariant_edges_by_dst]
  have hfil : (sortEdgesByDst edges).filter (fun e => decide (e.dst = n)) = [] := by
    rw [List.filter_eq_nil_iff]
    intro e he
    simpa using hno e (mem_sortEdgesByDst.mp he)
  obtain ⟨m, hm⟩ : ∃ m, closureFuel (sortEdgesByDst edges)
      (fun e => e.src) = m + 1 :=
    ⟨2 * (((sortEdgesByDst edges).map (fun e => e.src)).dedup).length,
      by unfold closureFuel; omega⟩
  rw [hm, closureLoop_cons]
  simp only [hfil, List.map_nil, scanInsert_nil]
  rw [closureLoop_run_empty]

theorem findAllAfter_empty (b : Bool) (edges : List DirectedEdge)
    (nodes : List Nat) (n : Nat)
    (hv : (buildVariant b edges nodes).valid = true)
    (hno : ∀ e ∈ edges, e.src ≠ n) :
    findAllAfter (buildVariant b edges nodes) n = (true, []) := by
  have hq : findAllAfter (buildVariant b edges nodes) n =
      (true, (closureLoop (buildVariant b edges nodes).edges_by_src
        (fun e => e.src) (fun e => e.dst)
        (closureFuel (buildVariant b edges nodes).edges_by_src (fun e => e.dst))
        [] [n]).1) := by
    simp [findAllAfter, hv]
  rw [hq, buildVariant_edges_by_src]
  have hfil : (sortEdgesBySrc edges).filter (fun e => decide (e.src = n)) = [] := by
    rw [List.filter_eq_nil_iff]
    intro e he
    simpa using hno e (mem_sortEdgesBySrc.mp he)
  obtain ⟨m, hm⟩ : ∃ m, closureFuel (sortEdgesBySrc edges)
      (fun e => e.dst) = m + 1 :=
    ⟨2 * (((sortEdgesBySrc edges).map (fun e => e.dst)).dedup).length,
      by unfold closureFuel; omega⟩
  rw [hm, closureLoop_cons]
  simp only [hfil, List.map_nil, scanInsert_nil]
  rw [closureLoop_run_empty]

/-! ## Failure conditions of the queries -/

theorem findBefore_ok_iff (g : DagState) (n : Nat) :
    (findBefore g n).1 = false ↔ g.valid = false := by
  by_cases hb : g.valid = true
  · simp [findBefore, hb]
  · rw [Bool.not_eq_true] at hb
    simp [findBefore, hb]

theorem findAfter_ok_iff (g : DagState) (n : Nat) :
    (findAfter g n).1 = false ↔ g.valid = false := by
  by_cases hb : g.valid = true
  · simp [findAfter, hb]
  · rw [Bool.not_eq_true] at hb
    simp [findAfter, hb]

theorem findAllBefore_ok_iff (g : DagState) (n : Nat) :
    (findAllBefore g n).1 = false ↔ g.valid = false := by
  by_cases hb : g.valid = true
  · simp [findAllBefore, hb]
  · rw [Bool.not_eq_true] at hb
    simp [findAllBefore, hb]

theorem findAllAfter_ok_iff (g : DagState) (n : Nat) :
    (findAllAfter g n).1 = false ↔ g.valid = false := by
  by_cases hb : g.valid = true
  · simp [findAllAfter, hb]
  · rw [Bool.not_eq_true] at hb
    simp [findAllAfter, hb]

theorem findCurrentTasks_ok_iff (g : DagState) (done : List Nat) :
    (findCurrentTasks g done).1 = false ↔ g.valid = false := by
  by_cases hb : g.valid = true
  · simp [findCurrentTasks, hb]
  · rw [Bool.not_eq_true] at hb
    simp [findCurrentTasks, hb]

theorem findAllSiblings_ok_iff (g : DagState) (n : Nat) :
    ((findAllSiblings g n).1 = false ↔
      (g.valid = false ∨ n ∉ g.all_nodes)) ∧
    ((findAllSiblings g n).1 = false → (findAllSiblings g n).2 = []) := by
  by_cases hc : g.valid = true ∧ n ∈ g.all_nodes
  · have h1 : (findAllSiblings g n).1 = true := by
      rw [findAllSiblings, if_pos hc]
      by_cases hlen : (findAllBefore g n).2.length +
          (findAllAfter g n).2.length + 1 < g.all_nodes.length
      · simp [hlen]
      · simp [hlen]
    constructor
    · rw [h1]
      simp [hc.1, hc.2]
    · intro hfalse
      rw [h1] at hfalse
      cases hfalse
  · have h1 : findAllSiblings g n = (false, []) := by
      rw [findAllSiblings, if_neg hc]
    rw [h1]
    constructor
    · constructor
      · intro _
        by_cases hv : g.valid = true
        · refine Or.inr ?_
          intro hmem
          exact hc ⟨hv, hmem⟩
        · rw [Bool.not_eq_true] at hv
          exact Or.inl hv
      · intro _
        rfl
    · intro _
      rfl

/-! ## The ready-set query -/

theorem findCurrentTasks_spec (b : Bool) (edges : List DirectedEdge)
    (nodes : List Nat) (done : List Nat)
    (hv : (buildVariant b edges nodes).valid = true) :
    (findCurrentTasks (buildVariant b edges nodes) done).1 = true ∧
    (findCurrentTasks (buildVariant b edges nodes) done).2.Sorted
      (fun a b => a < b) ∧
    (∀ x, x ∈ (findCurrentTasks (buildVariant b edges nodes) done).2 ↔
      x ∈ gatherNodes edges nodes ∧ x ∉ done ∧
        ∀ e ∈ edges, e.dst = x → e.src ∈ done) := by
  have hq : findCurrentTasks (buildVariant b edges nodes) done =
      (true,
        ((buildVariant b edges nodes).all_nodes.filter
            (fun n => !decide (n ∈ done))).filter
          (fun n => !((buildVariant b edges nodes).edges_by_dst.filter
              (fun e => !decide (e.src ∈ done))).any
            (fun e => decide (e.dst = n)))) := by
    simp [findCurrentTasks, hv]
  rw [hq, buildVariant_all_nodes, buildVariant_edges_by_dst]
  refine ⟨rfl, ?_, ?_⟩
  · exact ((gatherNodes_sorted edges nodes).filter _).filter _
  · intro x
    rw [List.mem_filter, List.mem_filter]
    constructor
    · rintro ⟨⟨hall, hdone⟩, hedge⟩
      rw [Bool.not_eq_true', decide_eq_false_iff_not] at hdone
      refine ⟨hall, hdone, ?_⟩
      intro e he hdst
      by_contra hsrc
      rw [Bool.not_eq_true', List.any_eq_false] at hedge
      have hmem : e ∈ (sortEdgesByDst edges).filter
          (fun e => !decide (e.src ∈ done)) := by
        rw [List.mem_filter]
        exact ⟨mem_sortEdgesByDst.mpr he, by simpa using hsrc⟩
      have := hedge e hmem
      simp [hdst] at this
    · rintro ⟨hall, hdone, hpred⟩
      refine ⟨⟨hall, by simpa using hdone⟩, ?_⟩
      rw [Bool.not_eq_true', List.any_eq_false]
      intro e hmem
      rw [List.mem_filter] at hmem
      simp only [decide_eq_true_eq]
      intro hdst
      have hsrc := hpred e (mem_sortEdgesByDst.mp hmem.1) hdst
      have := hmem.2
      simp [hsrc] at this

/-! ## The sibling query -/

theorem findAllSiblings_filter (g : DagState) (n : Nat) (hv : g.valid = true)
    (hn : n ∈ g.all_nodes)
    (hlen : (findAllBefore g n).2.length + (findAllAfter g n).2.length + 1 <
      g.all_nodes.length) :
    findAllSiblings g n = (true, g.all_nodes.filter (fun m =>
      !(decide (m = n) || decide (m ∈ (findAllBefore g n).2) ||
        decide (m ∈ (findAllAfter g n).2)))) := by
  rw [findAllSiblings, if_pos (⟨hv, hn⟩ : g.valid = true ∧ n ∈ g.all_nodes)]
  rw [if_pos hlen]

theorem findAllSiblings_fastout (g : DagState) (n : Nat) (hv : g.valid = true)
    (hn : n ∈ g.all_nodes)
    (hlen : ¬((findAllBefore g n).2.length + (findAllAfter g n).2.length + 1 <
      g.all_nodes.length)) :
    findAllSiblings g n = (true, []) := by
  rw [findAllSiblings, if_pos (⟨hv, hn⟩ : g.valid = true ∧ n ∈ g.all_nodes)]
  rw [if_neg hlen]

theorem findAllSiblings_partition (b : Bool) (edges : List DirectedEdge)
    (nodes : List Nat) (n : Nat)
    (hv : (buildVariant b edges nodes).valid = true)
    (hn : n ∈ (buildVariant b edges nodes).all_nodes) :
    (∀ x ∈ (findAllSiblings (buildVariant b edges nodes) n).2,
      ¬(x ∈ (findAllBefore (buildVariant b edges nodes) n).2 ∨
        x ∈ (findAllAfter (buildVariant b edges nodes) n).2 ∨ x = n)) ∧
    (∀ x, x ∈ (buildVariant b edges nodes).all_nodes ↔
      (x ∈ (findAllSiblings (buildVariant b edges nodes) n).2 ∨
       x ∈ (findAllBefore (buildVariant b edges nodes) n).2 ∨
       x ∈ (findAllAfter (buildVariant b edges nodes) n).2 ∨ x = n)) := by
  have hacyc := (buildVariant_valid_iff b edges nodes).mp hv
  obtain ⟨-, hBnd, hBs⟩ := findAllBefore_spec b edges nodes n hv
  obtain ⟨-, hAnd, hAs⟩ := findAllAfter_spec b edges nodes n hv
  have hBn : n ∉ (findAllBefore (buildVariant b edges nodes) n).2 := by
    intro hmem
    exact hacyc n (hBs n hmem).1
  have hAn : n ∉ (findAllAfter (buildVariant b edges nodes) n).2 := by
    intro hmem
    exact hacyc n (hAs n hmem).1
  have hdisjBA : ∀ x, x ∈ (findAllBefore (buildVariant b edges nodes) n).2 →
      x ∈ (findAllAfter (buildVariant b edges nodes) n).2 → False := by
    intro x hB hA
    exact hacyc n (Relation.TransGen.trans (hAs x hA).1 (hBs x hB).1)
  have hBsub : ∀ x ∈ (findAllBefore (buildVariant b edges nodes) n).2,
      x ∈ (buildVariant b edges nodes).all_nodes := by
    intro x hx
    rw [buildVariant_all_nodes]
    exact (hBs x hx).2
  have hAsub : ∀ x ∈ (findAllAfter (buildVariant b edges nodes) n).2,
      x ∈ (buildVariant b edges nodes).all_nodes := by
    intro x hx
    rw [buildVariant_all_nodes]
    exact (hAs x hx).2
  by_cases hlen : (findAllBefore (buildVariant b edges nodes) n).2.length +
      (findAllAfter (buildVariant b edges nodes) n).2.length + 1 <
      (buildVariant b edges nodes).all_nodes.length
  · have hsib := findAllSiblings_filter (buildVariant b edges nodes) n hv hn hlen
    rw [hsib]
    constructor
    · intro x hx
      rw [List.mem_filter] at hx
      have hx2 := hx.2
      simp only [Bool.not_eq_true', Bool.or_eq_false_iff, decide_eq_false_iff_not]
        at hx2
      rintro (h | h | h)
      · exact hx2.1.2 h
      · exact hx2.2 h
      · exact hx2.1.1 h
    · intro x
      constructor
      · intro hxall
        by_cases hx1 : x = n
        · exact Or.inr (Or.inr (Or.inr hx1))
        · by_cases hx2 : x ∈ (findAllBefore (buildVariant b edges nodes) n).2
          · exact Or.inr (Or.inl hx2)
          · by_cases hx3 : x ∈ (findAllAfter (buildVariant b edges nodes) n).2
            · exact Or.inr (Or.inr (Or.inl hx3))
            · refine Or.inl (List.mem_filter.mpr ⟨hxall, ?_⟩)
              simp [hx1, hx2, hx3]
      · rintro (h | h | h | h)
        · exact List.mem_of_mem_filter h
        · exact hBsub x h
        · exact hAsub x h
        · exact h ▸ hn
  · have hsib := findAllSiblings_fastout (buildVariant b edges nodes) n hv hn hlen
    rw [hsib]
    have hcover : List.Perm
        ((findAllBefore (buildVariant b edges nodes) n).2 ++
          (findAllAfter (buildVariant b edges nodes) n).2 ++ [n])
        (buildVariant b edges nodes).all_nodes := by
      have hnodup : ((findAllBefore (buildVariant b edges nodes) n).2 ++
          (findAllAfter (buildVariant b edges nodes) n).2 ++ [n]).Nodup := by
        rw [List.nodup_append]
        refine ⟨?_, List.nodup_singleton n, ?_⟩
        · rw [List.nodup_append]
          exact ⟨hBnd, hAnd, fun a ha hb => hdisjBA a ha hb⟩
        · intro a ha hb
          rw [List.mem_singleton] at hb
          subst hb
          rcases List.mem_append.mp ha with h | h
          · exact hBn h
          · exact hAn h
      have hsubs : ∀ x ∈ (findAllBefore (buildVariant b edges nodes) n).2 ++
          (findAllAfter (buildVariant b edges nodes) n).2 ++ [n],
          x ∈ (buildVariant b edges nodes).all_nodes := by
        intro x hx
        rcases List.mem_append.mp hx with h | h
        · rcases List.mem_append.mp h with h2 | h2
          · exact hBsub x h2
          · exact hAsub x h2
        · rw [List.mem_singleton] at h
          exact h ▸ hn
      have hsp := List.subperm_of_subset hnodup (fun x hx => hsubs x hx)
      apply hsp.perm_of_length_le
      simp only [List.length_append, List.length_singleton]
      omega
    constructor
    · intro x hx
      cases hx
    · intro x
      constructor
      · intro hxall
        have hx2 := hcover.mem_iff.mpr hxall
        rcases List.mem_append.mp hx2 with h | h
        · rcases List.mem_append.mp h with h2 | h2
          · exact Or.inr (Or.inl h2)
          · exact Or.inr (Or.inr (Or.inl h2))
        · rw [List.mem_singleton] at h
          exact Or.inr (Or.inr (Or.inr h))
      · rintro (h | h | h | h)
        · cases h
        · exact hBsub x h
        · exact hAsub x h
        · exact h ▸ hn

/-! ## Claim theorems -/

/-- C1: for every input edge collection and optional isolated-node
collection, the constructed graph's `get_valid()` is true iff the edge
multiset, viewed as a directed graph over `all_nodes`, contains no cycle;
this holds for both topological-sort variants (rescan and queue-based
Kahn). -/
theorem C1_valid_iff_no_cycle (edges : List DirectedEdge) (nodes : List Nat) :
    ((buildRescan edges nodes).valid = true ↔ Acyclic edges) ∧
    ((buildKahn edges nodes).valid = true ↔ Acyclic edges) :=
  ⟨(topoRescan_spec edges nodes).1, (topoKahn_spec edges nodes).1⟩

/-- C2: for every graph constructed with `get_valid() == true` and every
edge (u, v) of the input collection, the index of u in
`get_sorted_nodes()` is strictly less than the index of v; for both
topological-sort variants. -/
theorem C2_topo_order_respects_edges (edges : List DirectedEdge)
    (nodes : List Nat) (e : DirectedEdge) (he : e ∈ edges) :
    ((buildRescan edges nodes).valid = true →
      (buildRescan edges nodes).sorted_nodes.indexOf e.src <
        (buildRescan edges nodes).sorted_nodes.indexOf e.dst) ∧
    ((buildKahn edges nodes).valid = true →
      (buildKahn edges nodes).sorted_nodes.indexOf e.src <
        (buildKahn edges nodes).sorted_nodes.indexOf e.dst) :=
  ⟨fun hv => ((topoRescan_spec edges nodes).2 hv).2 e he,
   fun hv => ((topoKahn_spec edges nodes).2 hv).2 e he⟩

theorem C2_witness :
    ((⟨0, 1⟩ : DirectedEdge) ∈
      ([⟨0, 1⟩, ⟨1, 2⟩, ⟨0, 3⟩, ⟨3, 4⟩, ⟨2, 4⟩] : List DirectedEdge)) ∧
    ((buildKahn [⟨0, 1⟩, ⟨1, 2⟩, ⟨0, 3⟩, ⟨3, 4⟩, ⟨2, 4⟩] []).valid = true) ∧
    (buildKahn [⟨0, 1⟩, ⟨1, 2⟩, ⟨0, 3⟩, ⟨3, 4⟩, ⟨2, 4⟩] []).sorted_nodes.indexOf 0 <
      (buildKahn [⟨0, 1⟩, ⟨1, 2⟩, ⟨0, 3⟩, ⟨3, 4⟩, ⟨2, 4⟩] []).sorted_nodes.indexOf 1 :=
  ⟨by decide, by decide,
    (C2_topo_order_respects_edges [⟨0, 1⟩, ⟨1, 2⟩, ⟨0, 3⟩, ⟨3, 4⟩, ⟨2, 4⟩] []
      ⟨0, 1⟩ (by decide)).2 (by decide)⟩

/-- C3: for every constructed graph with `get_valid() == true` and every
sorted, duplicate-free `done`, `find_current_tasks` returns true and its
output is the strictly sorted (hence duplicate-free) list whose members
are exactly the nodes of the graph that are not in `done` and all of whose
direct predecessors are in `done`. -/
theorem C3_current_tasks (b : Bool) (edges : List DirectedEdge)
    (nodes : List Nat) (done : List Nat)
    (hv : (buildVariant b edges nodes).valid = true)
    (hsorted : done.Sorted (fun a b => a ≤ b)) (hnd : done.Nodup) :
    (findCurrentTasks (buildVariant b edges nodes) done).1 = true ∧
    (findCurrentTasks (buildVariant b edges nodes) done).2.Sorted
      (fun a b => a < b) ∧
    (findCurrentTasks (buildVariant b edges nodes) done).2.Nodup ∧
    (∀ x, x ∈ (findCurrentTasks (buildVariant b edges nodes) done).2 ↔
      x ∈ (buildVariant b edges nodes).all_nodes ∧ x ∉ done ∧
        ∀ e ∈ edges, e.dst = x → e.src ∈ done) := by
  obtain ⟨h1, h2, h3⟩ := findCurrentTasks_spec b edges nodes done hv
  refine ⟨h1, h2, h2.nodup, ?_⟩
  intro x
  rw [buildVariant_all_nodes]
  exact h3 x

theorem C3_witness :
    ((buildVariant true [⟨0, 1⟩, ⟨1, 2⟩, ⟨0, 3⟩, ⟨3, 4⟩, ⟨2, 4⟩] []).valid = true ∧
      ([0] : List Nat).Sorted (fun a b => a ≤ b) ∧ ([0] : List Nat).Nodup) ∧
    ((findCurrentTasks (buildVariant true
        [⟨0, 1⟩, ⟨1, 2⟩, ⟨0, 3⟩, ⟨3, 4⟩, ⟨2, 4⟩] []) [0]).1 = true ∧
     (findCurrentTasks (buildVariant true
        [⟨0, 1⟩, ⟨1, 2⟩, ⟨0, 3⟩, ⟨3, 4⟩, ⟨2, 4⟩] []) [0]).2.Sorted
        (fun a b => a < b) ∧
     (findCurrentTasks (buildVariant true
        [⟨0, 1⟩, ⟨1, 2⟩, ⟨0, 3⟩, ⟨3, 4⟩, ⟨2, 4⟩] []) [0]).2.Nodup ∧
     (∀ x, x ∈ (findCurrentTasks (buildVariant true
          [⟨0, 1⟩, ⟨1, 2⟩, ⟨0, 3⟩, ⟨3, 4⟩, ⟨2, 4⟩] []) [0]).2 ↔
        x ∈ (buildVariant true
          [⟨0, 1⟩, ⟨1, 2⟩, ⟨0, 3⟩, ⟨3, 4⟩, ⟨2, 4⟩] []).all_nodes ∧ x ∉ [0] ∧
        ∀ e ∈ ([⟨0, 1⟩, ⟨1, 2⟩, ⟨0, 3⟩, ⟨3, 4⟩, ⟨2, 4⟩] : List DirectedEdge),
          e.dst = x → e.src ∈ [0])) :=
  ⟨⟨by decide, by decide, by decide⟩,
    C3_current_tasks true [⟨0, 1⟩, ⟨1, 2⟩, ⟨0, 3⟩, ⟨3, 4⟩, ⟨2, 4⟩] [] [0]
      (by decide) (by decide) (by decide)⟩

/-- C4: for every constructed valid graph and node n present in
`get_all_nodes()`, the sibling set is disjoint from
`find_all_before ∪ find_all_after ∪ {n}`, and the union of the four sets
is exactly the node set. -/
theorem C4_siblings_partition (b : Bool) (edges : List DirectedEdge)
    (nodes : List Nat) (n : Nat)
    (hv : (buildVariant b edges nodes).valid = true)
    (hn : n ∈ (buildVariant b edges nodes).all_nodes) :
    (∀ x ∈ (findAllSiblings (buildVariant b edges nodes) n).2,
      ¬(x ∈ (findAllBefore (buildVariant b edges nodes) n).2 ∨
        x ∈ (findAllAfter (buildVariant b edges nodes) n).2 ∨ x = n)) ∧
    (∀ x, x ∈ (buildVariant b edges nodes).all_nodes ↔
      (x ∈ (findAllSiblings (buildVariant b edges nodes) n).2 ∨
       x ∈ (findAllBefore (buildVariant b edges nodes) n).2 ∨
       x ∈ (findAllAfter (buildVariant b edges nodes) n).2 ∨ x = n)) :=
  findAllSiblings_partition b edges nodes n hv hn

theorem C4_witness :
    ((buildVariant true [⟨0, 1⟩, ⟨1, 2⟩, ⟨0, 3⟩, ⟨3, 4⟩, ⟨2, 4⟩] []).valid = true ∧
      2 ∈ (buildVariant true [⟨0, 1⟩, ⟨1, 2⟩, ⟨0, 3⟩, ⟨3, 4⟩, ⟨2, 4⟩] []).all_nodes) ∧
    ((∀ x ∈ (findAllSiblings (buildVariant true
        [⟨0, 1⟩, ⟨1, 2⟩, ⟨0, 3⟩, ⟨3, 4⟩, ⟨2, 4⟩] []) 2).2,
      ¬(x ∈ (findAllBefore (buildVariant true
          [⟨0, 1⟩, ⟨1, 2⟩, ⟨0, 3⟩, ⟨3, 4⟩, ⟨2, 4⟩] []) 2).2 ∨
        x ∈ (findAllAfter (buildVariant true
          [⟨0, 1⟩, ⟨1, 2⟩, ⟨0, 3⟩, ⟨3, 4⟩, ⟨2, 4⟩] []) 2).2 ∨ x = 2)) ∧
     (∀ x, x ∈ (buildVariant true
        [⟨0, 1⟩, ⟨1, 2⟩, ⟨0, 3⟩, ⟨3, 4⟩, ⟨2, 4⟩] []).all_nodes ↔
       (x ∈ (findAllSiblings (buildVariant true
          [⟨0, 1⟩, ⟨1, 2⟩, ⟨0, 3⟩, ⟨3, 4⟩, ⟨2, 4⟩] []) 2).2 ∨
        x ∈ (findAllBefore (buildVariant true
          [⟨0, 1⟩, ⟨1, 2⟩, ⟨0, 3⟩, ⟨3, 4⟩, ⟨2, 4⟩] []) 2).2 ∨
        x ∈ (findAllAfter (buildVariant true
          [⟨0, 1⟩, ⟨1, 2⟩, ⟨0, 3⟩, ⟨3, 4⟩, ⟨2, 4⟩] []) 2).2 ∨ x = 2))) :=
  ⟨⟨by decide, by decide⟩,
    C4_siblings_partition true [⟨0, 1⟩, ⟨1, 2⟩, ⟨0, 3⟩, ⟨3, 4⟩, ⟨2, 4⟩] [] 2
      (by decide) (by decide)⟩

/-- C5: `get_all_nodes()` is strictly sorted (hence duplicate-free) and
its members are exactly the edge sources, edge destinations and the
explicitly supplied nodes, for the graphs built by either variant. -/
theorem C5_all_nodes_spec (edges : List DirectedEdge) (nodes : List Nat) :
    ((buildRescan edges nodes).all_nodes.Sorted (fun a b => a < b) ∧
      ∀ x, x ∈ (buildRescan edges nodes).all_nodes ↔
        (x ∈ nodes ∨ ∃ e ∈ edges, e.src = x ∨ e.dst = x)) ∧
    ((buildKahn edges nodes).all_nodes.Sorted (fun a b => a < b) ∧
      ∀ x, x ∈ (buildKahn edges nodes).all_nodes ↔
        (x ∈ nodes ∨ ∃ e ∈ edges, e.src = x ∨ e.dst = x)) :=
  ⟨⟨gatherNodes_sorted edges nodes, fun _ => mem_gatherNodes⟩,
   ⟨gatherNodes_sorted edges nodes, fun _ => mem_gatherNodes⟩⟩

/-- C6 counterexample: a valid graph on which `find_all_siblings` reports
failure for an id absent from `all_nodes`, refuting the claim that every
query fails exactly when the graph is invalid. -/
theorem C6_counterexample :
    (buildKahn [⟨0, 1⟩] []).valid = true ∧
    (findAllSiblings (buildKahn [⟨0, 1⟩] []) 5).1 = false := by
  constructor
  · decide
  · decide

/-- C6 (amended): the five queries `find_before`, `find_after`,
`find_all_before`, `find_all_after` and `find_current_tasks` report
failure exactly when the graph is invalid, for any input; `find_all_siblings`
reports failure exactly when the graph is invalid or the queried id is not
in `all_nodes`. -/
theorem C6_failure_conditions (g : DagState) (n : Nat) (done : List Nat) :
    ((findBefore g n).1 = false ↔ g.valid = false) ∧
    ((findAfter g n).1 = false ↔ g.valid = false) ∧
    ((findAllBefore g n).1 = false ↔ g.valid = false) ∧
    ((findAllAfter g n).1 = false ↔ g.valid = false) ∧
    ((findCurrentTasks g done).1 = false ↔ g.valid = false) ∧
    ((findAllSiblings g n).1 = false ↔
      (g.valid = false ∨ n ∉ g.all_nodes)) :=
  ⟨findBefore_ok_iff g n, findAfter_ok_iff g n, findAllBefore_ok_iff g n,
   findAllAfter_ok_iff g n, findCurrentTasks_ok_iff g done,
   (findAllSiblings_ok_iff g n).1⟩

/-- C7: `find_all_siblings` returns false exactly when the graph is
invalid or the id is not present in `all_nodes`, and the output is then
empty. -/
theorem C7_siblings_failure (g : DagState) (n : Nat) :
    ((findAllSiblings g n).1 = false ↔
      (g.valid = false ∨ n ∉ g.all_nodes)) ∧
    ((findAllSiblings g n).1 = false → (findAllSiblings g n).2 = []) :=
  findAllSiblings_ok_iff g n

theorem C7_witness :
    ((findAllSiblings (buildKahn [⟨0, 1⟩, ⟨1, 0⟩] []) 0).1 = false ↔
      ((buildKahn [⟨0, 1⟩, ⟨1, 0⟩] []).valid = false ∨
        0 ∉ (buildKahn [⟨0, 1⟩, ⟨1, 0⟩] []).all_nodes)) ∧
    (findAllSiblings (buildKahn [⟨0, 1⟩, ⟨1, 0⟩] []) 0).2 = [] :=
  ⟨(C7_siblings_failure (buildKahn [⟨0, 1⟩, ⟨1, 0⟩] []) 0).1,
    (C7_siblings_failure (buildKahn [⟨0, 1⟩, ⟨1, 0⟩] []) 0).2 (by decide)⟩

/-- C8: the two topological-sort variants agree on the valid flag, and on
a valid input each produces a topological order that is a permutation of
the same `all_nodes` set. -/
theorem C8_variant_agreement (edges : List DirectedEdge) (nodes : List Nat) :
    (buildRescan edges nodes).valid = (buildKahn edges nodes).valid ∧
    ((buildKahn edges nodes).valid = true →
      List.Perm (buildRescan edges nodes).sorted_nodes
        (buildRescan edges nodes).all_nodes ∧
      List.Perm (buildKahn edges nodes).sorted_nodes
        (buildKahn edges nodes).all_nodes) := by
  have hr := topoRescan_spec edges nodes
  have hk := topoKahn_spec edges nodes
  have hval : (buildRescan edges nodes).valid = (buildKahn edges nodes).valid := by
    cases hbr : (buildRescan edges nodes).valid <;>
      cases hbk : (buildKahn edges nodes).valid
    · rfl
    · exfalso
      have hac := hk.1.mp hbk
      have h2 : (buildRescan edges nodes).valid = true := hr.1.mpr hac
      rw [hbr] at h2
      cases h2
    · exfalso
      have hac : Acyclic edges := hr.1.mp hbr
      have h2 : (buildKahn edges nodes).valid = true := hk.1.mpr hac
      rw [hbk] at h2
      cases h2
    · rfl
  refine ⟨hval, ?_⟩
  intro hkv
  have hrv : (buildRescan edges nodes).valid = true := by
    rw [hval]
    exact hkv
  exact ⟨(hr.2 hrv).1, (hk.2 hkv).1⟩

theorem C8_witness :
    ((buildKahn [⟨0, 1⟩, ⟨1, 2⟩, ⟨0, 3⟩, ⟨3, 4⟩, ⟨2, 4⟩] []).valid = true) ∧
    (List.Perm (buildRescan [⟨0, 1⟩, ⟨1, 2⟩, ⟨0, 3⟩, ⟨3, 4⟩, ⟨2, 4⟩] []).sorted_nodes
        (buildRescan [⟨0, 1⟩, ⟨1, 2⟩, ⟨0, 3⟩, ⟨3, 4⟩, ⟨2, 4⟩] []).all_nodes ∧
      List.Perm (buildKahn [⟨0, 1⟩, ⟨1, 2⟩, ⟨0, 3⟩, ⟨3, 4⟩, ⟨2, 4⟩] []).sorted_nodes
        (buildKahn [⟨0, 1⟩, ⟨1, 2⟩, ⟨0, 3⟩, ⟨3, 4⟩, ⟨2, 4⟩] []).all_nodes) :=
  ⟨by decide,
    (C8_variant_agreement [⟨0, 1⟩, ⟨1, 2⟩, ⟨0, 3⟩, ⟨3, 4⟩, ⟨2, 4⟩] []).2 (by decide)⟩

/-- C10: on a valid graph, `find_all_before` succeeds with empty output
for a node with no incoming edge, `find_all_after` for a node with no
outgoing edge, and both for a node absent from `all_nodes`. -/
theorem C10_missing_node_closures (b : Bool) (edges : List DirectedEdge)
    (nodes : List Nat) (n : Nat)
    (hv : (buildVariant b edges nodes).valid = true) :
    ((∀ e ∈ edges, e.dst ≠ n) →
      findAllBefore (buildVariant b edges nodes) n = (true, [])) ∧
    ((∀ e ∈ edges, e.src ≠ n) →
      findAllAfter (buildVariant b edges nodes) n = (true, [])) ∧
    (n ∉ (buildVariant b edges nodes).all_nodes →
      findAllBefore (buildVariant b edges nodes) n = (true, []) ∧
      findAllAfter (buildVariant b edges nodes) n = (true, [])) := by
  refine ⟨findAllBefore_empty b edges nodes n hv,
    findAllAfter_empty b edges nodes n hv, ?_⟩
  intro habs
  rw [buildVariant_all_nodes] at habs
  constructor
  · apply findAllBefore_empty b edges nodes n hv
    intro e he hdst
    exact habs (hdst ▸ dst_mem_gatherNodes he)
  · apply findAllAfter_empty b edges nodes n hv
    intro e he hsrc
    exact habs (hsrc ▸ src_mem_gatherNodes he)

theorem C10_witness :
    ((buildVariant true [⟨0, 1⟩, ⟨1, 2⟩, ⟨0, 3⟩, ⟨3, 4⟩, ⟨2, 4⟩] []).valid = true) ∧
    (9 ∉ (buildVariant true [⟨0, 1⟩, ⟨1, 2⟩, ⟨0, 3⟩, ⟨3, 4⟩, ⟨2, 4⟩] []).all_nodes) ∧
    (findAllBefore (buildVariant true
      [⟨0, 1⟩, ⟨1, 2⟩, ⟨0, 3⟩, ⟨3, 4⟩, ⟨2, 4⟩] []) 9 = (true, []) ∧
     findAllAfter (buildVariant true
      [⟨0, 1⟩, ⟨1, 2⟩, ⟨0, 3⟩, ⟨3, 4⟩, ⟨2, 4⟩] []) 9 = (true, [])) :=
  ⟨by decide, by decide,
    (C10_missing_node_closures true [⟨0, 1⟩, ⟨1, 2⟩, ⟨0, 3⟩, ⟨3, 4⟩, ⟨2, 4⟩] [] 9
      (by decide)).2.2 (by decide)⟩
